import Mathlib

/-!
Verification development for a small C expression front-end
(`lexer.c` + recursive-descent parser `parser.c`).

The lexer (`lexer.c`) is modelled over the string-backed source backing:
the backing's cursor into the NUL-terminated buffer is represented by the
list of characters not yet consumed.  `lex_getc` pops the head (returning
EOF on the empty list, which corresponds to the cursor sitting on the
terminating NUL), and `lex_ungetc` restores the character just read, which
in the list representation is re-consing the very same character.  Reads
past the terminating NUL are undefined behaviour in C; the model returns
EOF there, which is the only behaviour the drivers can observe because
they stop at the first `TOK_EOF`.

The parser (`parser.c`) is modelled over the materialized token sequence:
the parse context's `position` cursor into `tokens` is represented by the
list of tokens from `position` onward.  An array access at an
out-of-range index is modelled as the distinguished outcome
`PErr.OutOfBounds`, distinct from the parse failure raised by `xerror`.
Recursion is made total with an explicit fuel parameter; exhausted fuel
yields the distinguished outcome `PRes.noFuel`.
-/

/-- Token kinds, from `token.h` as used by `lexer.c` and `parser.c`
(the spec's closed token-kind enumeration, §6). -/
inductive TokType where
  | TOK_SPACE
  | TOK_EOF
  | TOK_NUMBER
  | TOK_IDENT
  | TOK_PLUS
  | TOK_MINUS
  | TOK_DIV
  | TOK_MULTIPLY
  | TOK_MOD
  | TOK_QMARK
  | TOK_COLON
  | TOK_NEQUALITY
  | TOK_EQUALITY
  | TOK_BWAND
  | TOK_LAND
  | TOK_BWOR
  | TOK_LOR
  | TOK_LSHIFT
  | TOK_LT
  | TOK_LTE
  | TOK_RSHIFT
  | TOK_GT
  | TOK_GTE
  | TOK_BWXOR
  | TOK_BWNEG
  | TOK_LPAREN
  | TOK_RPAREN
  | TOK_SEMICOLON
  deriving DecidableEq, Repr

open TokType

/-- `token_t` from `token.h`: a kind, and literal text exactly for
literal-bearing tokens (`is_literal` is modelled by the `Option`). -/
structure token_t where
  type : TokType
  literal : Option (List Char)
  deriving DecidableEq, Repr

/-- `lex_mkspecial` / `lex_mkkw` (`lexer.c:69,77`): a token with no literal. -/
def lex_mkkw (t : TokType) : token_t := ⟨t, none⟩

/-- `lex_mknumber` (`lexer.c:85`). -/
def lex_mknumber (t : TokType) (number : List Char) : token_t := ⟨t, some number⟩

/-- `lex_mkident` (`lexer.c:94`). -/
def lex_mkident (t : TokType) (identifier : List Char) : token_t := ⟨t, some identifier⟩

/-- C `isspace` in the default locale (space, tab, newline, vertical tab,
form feed, carriage return). -/
def c_isspace (c : Char) : Bool :=
  c = ' ' ∨ c = '\t' ∨ c = '\n' ∨ c = '\x0b' ∨ c = '\x0c' ∨ c = '\r'

/-- Digit-run loop of `lex_chnumber` (`lexer.c:108`): consume digits,
pushing the first non-digit back; at EOF break without push-back. -/
def lex_chnumber_go : List Char → List Char → List Char × List Char
  | [], acc => (acc, [])
  | c :: r, acc => if c.isDigit then lex_chnumber_go r (acc ++ [c]) else (acc, c :: r)

/-- Letter-run loop of `lex_chident` (`lexer.c:127`).  The C continuation
test `!isalpha(c) || c == '_'` stops at anything that is not a letter
(in particular `_` and digits stop the run). -/
def lex_chident_go : List Char → List Char → List Char × List Char
  | [], acc => (acc, [])
  | c :: r, acc => if c.isAlpha then lex_chident_go r (acc ++ [c]) else (acc, c :: r)

/-- `lex_chnot` (`lexer.c:146`): after `!`, a `=` yields `TOK_NEQUALITY`;
any other character (or EOF) is consumed and NULL is returned — no
push-back, no single-character token. -/
def lex_chnot : List Char → Option token_t × List Char
  | [] => (none, [])
  | c :: r => if c = '=' then (some (lex_mkkw TOK_NEQUALITY), r) else (none, r)

/-- `lex_cheq` (`lexer.c:158`): after `=`, a `=` yields `TOK_EQUALITY`;
otherwise the character is pushed back and a `TOK_BWOR` token is emitted. -/
def lex_cheq : List Char → Option token_t × List Char
  | [] => (some (lex_mkkw TOK_BWOR), [])
  | c :: r => if c = '=' then (some (lex_mkkw TOK_EQUALITY), r)
              else (some (lex_mkkw TOK_BWOR), c :: r)

/-- `lex_chor` (`lexer.c:171`). -/
def lex_chor : List Char → Option token_t × List Char
  | [] => (some (lex_mkkw TOK_BWOR), [])
  | c :: r => if c = '|' then (some (lex_mkkw TOK_LOR), r)
              else (some (lex_mkkw TOK_BWOR), c :: r)

/-- `lex_chand` (`lexer.c:184`). -/
def lex_chand : List Char → Option token_t × List Char
  | [] => (some (lex_mkkw TOK_BWAND), [])
  | c :: r => if c = '&' then (some (lex_mkkw TOK_LAND), r)
              else (some (lex_mkkw TOK_BWAND), c :: r)

/-- `lex_chlbr` (`lexer.c:197`). -/
def lex_chlbr : List Char → Option token_t × List Char
  | [] => (some (lex_mkkw TOK_LT), [])
  | c :: r => if c = '<' then (some (lex_mkkw TOK_LSHIFT), r)
              else if c = '=' then (some (lex_mkkw TOK_LTE), r)
              else (some (lex_mkkw TOK_LT), c :: r)

/-- `lex_chrbr` (`lexer.c:212`). -/
def lex_chrbr : List Char → Option token_t × List Char
  | [] => (some (lex_mkkw TOK_GT), [])
  | c :: r => if c = '>' then (some (lex_mkkw TOK_RSHIFT), r)
              else if c = '=' then (some (lex_mkkw TOK_GTE), r)
              else (some (lex_mkkw TOK_GT), c :: r)

/-- The big `switch (c)` of `lex_token` (`lexer.c:255`), dispatching on a
character already read from a source with remainder `r`.  Characters
outside every case yield `TOK_EOF`; `lex_chnot` may yield NULL (`none`). -/
def lex_dispatch (c : Char) (r : List Char) : Option token_t × List Char :=
  match c with
  | '+' => (some (lex_mkkw TOK_PLUS), r)
  | '-' => (some (lex_mkkw TOK_MINUS), r)
  | '/' => (some (lex_mkkw TOK_DIV), r)
  | '*' => (some (lex_mkkw TOK_MULTIPLY), r)
  | '%' => (some (lex_mkkw TOK_MOD), r)
  | '?' => (some (lex_mkkw TOK_QMARK), r)
  | ':' => (some (lex_mkkw TOK_COLON), r)
  | '!' => lex_chnot r
  | '=' => lex_cheq r
  | '&' => lex_chand r
  | '|' => lex_chor r
  | '<' => lex_chlbr r
  | '>' => lex_chrbr r
  | '^' => (some (lex_mkkw TOK_BWXOR), r)
  | '~' => (some (lex_mkkw TOK_BWNEG), r)
  | '(' => (some (lex_mkkw TOK_LPAREN), r)
  | ')' => (some (lex_mkkw TOK_RPAREN), r)
  | ';' => (some (lex_mkkw TOK_SEMICOLON), r)
  | _ =>
    if c.isDigit then
      let p := lex_chnumber_go r [c]
      (some (lex_mknumber TOK_NUMBER p.1), p.2)
    else if c.isAlpha ∨ c = '_' then
      let p := lex_chident_go r [c]
      (some (lex_mkident TOK_IDENT p.1), p.2)
    else (some (lex_mkkw TOK_EOF), r)

/-- `lex_token` (`lexer.c:246`): `lex_skip_space` consumes one whitespace
character and yields a `TOK_SPACE` token; at end of input a `TOK_EOF`
token; otherwise the next character is dispatched by the `switch`. -/
def lex_token : List Char → Option token_t × List Char
  | [] => (some (lex_mkkw TOK_EOF), [])
  | c :: r =>
    if c_isspace c then (some (lex_mkkw TOK_SPACE), r)
    else lex_dispatch c r

/-- The lexing driver loop (`interpreter.c:37`): call `lex_token`, abort on
NULL, collect tokens until the first `TOK_EOF` token (inclusive).  Returns
the collected tokens and the characters left unconsumed.  `none` covers
both the NULL abort and fuel exhaustion (the loop in C always terminates,
see the fuel-sufficiency lemma). -/
def lex_run : Nat → List Char → Option (List token_t × List Char)
  | 0, _ => none
  | fuel + 1, l =>
    match lex_token l with
    | (none, _) => none
    | (some t, r) =>
      if t.type = TOK_EOF then some ([t], r)
      else match lex_run fuel r with
           | none => none
           | some (ts, rest) => some (t :: ts, rest)

/-- The end-of-input token (`lex_mkspecial(TOK_EOF)`). -/
def eofTok : token_t := lex_mkkw TOK_EOF

/-- AST nodes (`parser.h:22`): the `arity`/`is_term`-tagged union as a
closed tagged variant.  `unary` mirrors `ast_unary_operator`, which is
declared but produced by no grammar rule. -/
inductive Node where
  | num : Int → Node
  | binary : TokType → Node → Node → Node
  | unary : TokType → Node → Node
  deriving DecidableEq, Repr

/-- `ast_binary_operator` (`parser.c`): binary node with `is_term = 0`. -/
def ast_binary_operator (id : TokType) (left right : Node) : Node :=
  .binary id left right

/-- `ast_unary_operator` (`parser.c`): unary node; never called by any
grammar rule. -/
def ast_unary_operator (id : TokType) (operand : Node) : Node :=
  .unary id operand

/-- `ast_number` (`parser.c`): numeric leaf with `is_term = 1`. -/
def ast_number (value : Int) : Node := .num value

/-- `strtol(text, NULL, 10)` on a token literal.  Number literals are
non-empty digit runs by construction, so the model is a plain base-10
fold (C `long` overflow saturation is not modelled; no claim exercises
it). -/
def strtol10 : Option (List Char) → Int
  | none => 0
  | some ds => ds.foldl (fun a c => a * 10 + ((c.toNat : Int) - 48)) 0

/-- Modelled from the spec: the parse-time error taxonomy (§7).  The
reference escapes every parse failure through a single `xerror`
(`compiler.h`, not part of the sources), which the spec classifies as
`UnexpectedToken`; an out-of-bounds token-array access (undefined
behaviour in C) is the distinguished outcome `OutOfBounds`. -/
inductive PErr where
  | UnexpectedToken
  | OutOfBounds
  deriving DecidableEq, Repr

/-- Outcome of a fueled parse function: a node plus the remaining tokens,
an aborted parse, or exhausted fuel. -/
inductive PRes where
  | ok : Node → List token_t → PRes
  | fail : PErr → PRes
  | noFuel : PRes
  deriving DecidableEq, Repr

/-- `rdp_peek` (`parser.c`): read `tokens[position]`; out of bounds on an
empty remainder. -/
def rdp_peek : List token_t → Option token_t
  | [] => none
  | t :: _ => some t

/-- `rdp_pop` (`parser.c`): peek then advance. -/
def rdp_pop : List token_t → Option (token_t × List token_t)
  | [] => none
  | t :: r => some (t, r)

/-- `rdp_consume_blanks` (`parser.c`): advance while the current token is
`TOK_SPACE`.  Each loop test reads `tokens[position]`, so running off the
end of the sequence is an out-of-bounds read (`none`). -/
def rdp_consume_blanks : List token_t → Option (List token_t)
  | [] => none
  | t :: r => if t.type = TOK_SPACE then rdp_consume_blanks r else some (t :: r)

/-- `rdp_const` (`parser.c`): skip blanks, pop, require `TOK_NUMBER`,
convert the literal with `strtol`. -/
def rdp_const (l : List token_t) : PRes :=
  match rdp_consume_blanks l with
  | none => .fail .OutOfBounds
  | some l1 =>
    match rdp_pop l1 with
    | none => .fail .OutOfBounds
    | some (t, r) =>
      if t.type = TOK_NUMBER then .ok (ast_number (strtol10 t.literal)) r
      else .fail .UnexpectedToken

mutual

/-- `rdp_primary_exp` (`parser.c`): `<const>` or `'(' <expression> ')'`. -/
def rdp_primary_exp : Nat → List token_t → PRes
  | 0, _ => .noFuel
  | fuel + 1, l =>
    match rdp_consume_blanks l with
    | none => .fail .OutOfBounds
    | some l1 =>
      match rdp_peek l1 with
      | none => .fail .OutOfBounds
      | some left =>
        if left.type = TOK_LPAREN then
          match rdp_expression fuel l1.tail with
          | .ok expr l2 =>
            (match rdp_consume_blanks l2 with
             | none => .fail .OutOfBounds
             | some l3 =>
               match rdp_pop l3 with
               | none => .fail .OutOfBounds
               | some (right, l4) =>
                 if right.type = TOK_RPAREN then .ok expr l4
                 else .fail .UnexpectedToken)
          | .fail e => .fail e
          | .noFuel => .noFuel
        else rdp_const l1

/-- `rdp_unary_exp` (`parser.c`): currently just `<primary_exp>`. -/
def rdp_unary_exp : Nat → List token_t → PRes
  | 0, _ => .noFuel
  | fuel + 1, l => rdp_primary_exp fuel l

/-- The `while (1)` fold of `rdp_mult_exp`. -/
def rdp_mult_loop : Nat → Node → List token_t → PRes
  | 0, _, _ => .noFuel
  | fuel + 1, left, l =>
    match rdp_consume_blanks l with
    | none => .fail .OutOfBounds
    | some l1 =>
      match rdp_peek l1 with
      | none => .fail .OutOfBounds
      | some op =>
        if op.type = TOK_MULTIPLY ∨ op.type = TOK_DIV ∨ op.type = TOK_MOD then
          match rdp_unary_exp fuel l1.tail with
          | .ok n r => rdp_mult_loop fuel (ast_binary_operator op.type left n) r
          | .fail e => .fail e
          | .noFuel => .noFuel
        else .ok left l1

/-- `rdp_mult_exp` (`parser.c`). -/
def rdp_mult_exp : Nat → List token_t → PRes
  | 0, _ => .noFuel
  | fuel + 1, l =>
    match rdp_unary_exp fuel l with
    | .ok left r => rdp_mult_loop fuel left r
    | .fail e => .fail e
    | .noFuel => .noFuel

/-- The `while (1)` fold of `rdp_additive_exp`. -/
def rdp_additive_loop : Nat → Node → List token_t → PRes
  | 0, _, _ => .noFuel
  | fuel + 1, left, l =>
    match rdp_consume_blanks l with
    | none => .fail .OutOfBounds
    | some l1 =>
      match rdp_peek l1 with
      | none => .fail .OutOfBounds
      | some op =>
        if op.type = TOK_PLUS ∨ op.type = TOK_MINUS then
          match rdp_mult_exp fuel l1.tail with
          | .ok n r => rdp_additive_loop fuel (ast_binary_operator op.type left n) r
          | .fail e => .fail e
          | .noFuel => .noFuel
        else .ok left l1

/-- `rdp_additive_exp` (`parser.c`). -/
def rdp_additive_exp : Nat → List token_t → PRes
  | 0, _ => .noFuel
  | fuel + 1, l =>
    match rdp_mult_exp fuel l with
    | .ok left r => rdp_additive_loop fuel left r
    | .fail e => .fail e
    | .noFuel => .noFuel

/-- The `while (1)` fold of `rdp_and_exp`. -/
def rdp_and_loop : Nat → Node → List token_t → PRes
  | 0, _, _ => .noFuel
  | fuel + 1, left, l =>
    match rdp_consume_blanks l with
    | none => .fail .OutOfBounds
    | some l1 =>
      match rdp_peek l1 with
      | none => .fail .OutOfBounds
      | some op =>
        if op.type = TOK_BWAND then
          match rdp_additive_exp fuel l1.tail with
          | .ok n r => rdp_and_loop fuel (ast_binary_operator op.type left n) r
          | .fail e => .fail e
          | .noFuel => .noFuel
        else .ok left l1

/-- `rdp_and_exp` (`parser.c`). -/
def rdp_and_exp : Nat → List token_t → PRes
  | 0, _ => .noFuel
  | fuel + 1, l =>
    match rdp_additive_exp fuel l with
    | .ok left r => rdp_and_loop fuel left r
    | .fail e => .fail e
    | .noFuel => .noFuel

/-- The `while (1)` fold of `rdp_xor_exp`. -/
def rdp_xor_loop : Nat → Node → List token_t → PRes
  | 0, _, _ => .noFuel
  | fuel + 1, left, l =>
    match rdp_consume_blanks l with
    | none => .fail .OutOfBounds
    | some l1 =>
      match rdp_peek l1 with
      | none => .fail .OutOfBounds
      | some op =>
        if op.type = TOK_BWXOR then
          match rdp_and_exp fuel l1.tail with
          | .ok n r => rdp_xor_loop fuel (ast_binary_operator op.type left n) r
          | .fail e => .fail e
          | .noFuel => .noFuel
        else .ok left l1

/-- `rdp_xor_exp` (`parser.c`). -/
def rdp_xor_exp : Nat → List token_t → PRes
  | 0, _ => .noFuel
  | fuel + 1, l =>
    match rdp_and_exp fuel l with
    | .ok left r => rdp_xor_loop fuel left r
    | .fail e => .fail e
    | .noFuel => .noFuel

/-- The `while (1)` fold of `rdp_ior_exp`. -/
def rdp_ior_loop : Nat → Node → List token_t → PRes
  | 0, _, _ => .noFuel
  | fuel + 1, left, l =>
    match rdp_consume_blanks l with
    | none => .fail .OutOfBounds
    | some l1 =>
      match rdp_peek l1 with
      | none => .fail .OutOfBounds
      | some op =>
        if op.type = TOK_BWOR then
          match rdp_xor_exp fuel l1.tail with
          | .ok n r => rdp_ior_loop fuel (ast_binary_operator op.type left n) r
          | .fail e => .fail e
          | .noFuel => .noFuel
        else .ok left l1

/-- `rdp_ior_exp` (`parser.c`). -/
def rdp_ior_exp : Nat → List token_t → PRes
  | 0, _ => .noFuel
  | fuel + 1, l =>
    match rdp_xor_exp fuel l with
    | .ok left r => rdp_ior_loop fuel left r
    | .fail e => .fail e
    | .noFuel => .noFuel

/-- `rdp_expression` (`parser.c`): `<expression> : <ior_exp>`. -/
def rdp_expression : Nat → List token_t → PRes
  | 0, _ => .noFuel
  | fuel + 1, l => rdp_ior_exp fuel l

end

/-- `rdp_generate_ast` (`parser.c`): the top-level entry invokes
`rdp_expression` once; nothing checks that all tokens were consumed. -/
def rdp_generate_ast (fuel : Nat) (l : List token_t) : PRes :=
  rdp_expression fuel l

/-- The whole REPL pipeline of `interpreter.c` on one line of input:
lex the string to a token sequence (stopping at the first `TOK_EOF`),
then run the parser on it.  Fuel bounds are generous upper bounds on the
work both phases can perform. -/
def cc_parse (s : String) : Option PRes :=
  match lex_run (s.data.length + 1) s.data with
  | none => none
  | some (ts, _) => some (rdp_generate_ast (9 * ts.length + 9) ts)

/-- The tokens dropped by one run of the `rdp_consume_blanks` loop
(pure counterpart, used to state lemmas about it). -/
def dropSpaces : List token_t → List token_t
  | [] => []
  | t :: r => if t.type = TOK_SPACE then dropSpaces r else t :: r

/-- The operator kinds folded at the multiplicative level. -/
def multLevel : List TokType := [TOK_MULTIPLY, TOK_DIV, TOK_MOD]

/-- Operator kinds folded at the multiplicative or additive level. -/
def addLevel : List TokType := multLevel ++ [TOK_PLUS, TOK_MINUS]

/-- Operator kinds folded at or below the bitwise-and level. -/
def andLevel : List TokType := addLevel ++ [TOK_BWAND]

/-- Operator kinds folded at or below the bitwise-xor level. -/
def xorLevel : List TokType := andLevel ++ [TOK_BWXOR]

/-- All eight operator kinds the grammar folds. -/
def iorLevel : List TokType := xorLevel ++ [TOK_BWOR]

/-- The first remaining token exists, is not whitespace and is outside
`ops` (the shape of a remainder at which a fold level has stopped). -/
def HeadStop (ops : List TokType) : List token_t → Prop
  | [] => False
  | t :: _ => t.type ∉ ops ∧ t.type ≠ TOK_SPACE

/-- A token no grammar level reacts to: not whitespace and none of the
eight folded operators.  Replacing the remainder of a token sequence
beyond such a token by another such token cannot change a parse that
never consumed past it. -/
def Stopper (t : token_t) : Prop :=
  t.type ≠ TOK_SPACE ∧ t.type ∉ iorLevel

instance : DecidablePred Stopper := fun t => by
  unfold Stopper; infer_instance

/-- Nodes an evaluator or printer matching the spec's AST interface can
handle: numeric leaves, and binary nodes over the eight folded operator
kinds; unary nodes and other operators are not good. -/
def goodNode : Node → Bool
  | .num _ => true
  | .binary id l r => iorLevel.contains id && goodNode l && goodNode r
  | .unary _ _ => false

/-- A well-formed token sequence (spec §3): non-empty, the final element
has kind end-of-input, and no other element does. -/
def WellFormedToks (l : List token_t) : Prop :=
  ∃ c t, l = c ++ [t] ∧ t.type = TOK_EOF ∧ ∀ t' ∈ c, t'.type ≠ TOK_EOF

/-- A token sequence whose last element has kind end-of-input (the
invariant the parser maintains on every remainder it creates). -/
def HasEOF (l : List token_t) : Prop :=
  ∃ c t, l = c ++ [t] ∧ t.type = TOK_EOF

/-- The outcomes a parse function can have on a token sequence that still
contains its end-of-input token: a success whose remainder again contains
the end-of-input token, a parse failure raised by `xerror`, or exhausted
fuel — but never an out-of-bounds token access. -/
def SafeRes (X : PRes) : Prop :=
  (∃ n r, X = .ok n r ∧ HasEOF r) ∨ X = .fail .UnexpectedToken ∨ X = .noFuel

/-- Characters the `lex_token` switch recognizes (everything that does not
fall through to the defensive end-of-input fallback). -/
def recognizedChar (c : Char) : Bool :=
  c_isspace c || c == '+' || c == '-' || c == '/' || c == '*' || c == '%' ||
  c == '?' || c == ':' || c == '!' || c == '=' || c == '&' || c == '|' ||
  c == '<' || c == '>' || c == '^' || c == '~' || c == '(' || c == ')' ||
  c == ';' || c.isDigit || c.isAlpha || c == '_'

/-- Every `!` in the character list is immediately followed by `=` (the
inputs on which `lex_chnot` cannot return NULL). -/
def bangOk : List Char → Bool
  | [] => true
  | c :: r => (!(c == '!') || (r.head? == some '=')) && bangOk r

/-! ### Lemmas about the parse-context operations -/

theorem rdp_consume_blanks_suffix : ∀ l l', rdp_consume_blanks l = some l' → l' <:+ l := by
  intro l
  induction l with
  | nil => intro l' h; simp [rdp_consume_blanks] at h
  | cons t r ih =>
    intro l' h
    by_cases hs : t.type = TOK_SPACE
    · simp only [rdp_consume_blanks, if_pos hs] at h
      exact (ih l' h).trans (List.suffix_cons t r)
    · simp only [rdp_consume_blanks, if_neg hs] at h
      cases h
      exact List.suffix_rfl

theorem rdp_consume_blanks_shape : ∀ l l', rdp_consume_blanks l = some l' →
    ∃ t r, l' = t :: r ∧ t.type ≠ TOK_SPACE := by
  intro l
  induction l with
  | nil => intro l' h; simp [rdp_consume_blanks] at h
  | cons t r ih =>
    intro l' h
    by_cases hs : t.type = TOK_SPACE
    · simp only [rdp_consume_blanks, if_pos hs] at h
      exact ih l' h
    · simp only [rdp_consume_blanks, if_neg hs] at h
      cases h
      exact ⟨t, r, rfl, hs⟩

theorem rdp_consume_blanks_nospace {t : token_t} (r : List token_t)
    (h : t.type ≠ TOK_SPACE) : rdp_consume_blanks (t :: r) = some (t :: r) := by
  simp only [rdp_consume_blanks, if_neg h]

theorem rdp_consume_blanks_append (c : List token_t) {a : token_t} (u : List token_t)
    (ha : a.type ≠ TOK_SPACE) :
    rdp_consume_blanks (c ++ a :: u) = some (dropSpaces c ++ a :: u) := by
  induction c with
  | nil => simpa [dropSpaces] using rdp_consume_blanks_nospace u ha
  | cons t c' ih =>
    by_cases hs : t.type = TOK_SPACE
    · simpa only [List.cons_append, rdp_consume_blanks, if_pos hs, dropSpaces] using ih
    · simp only [List.cons_append, rdp_consume_blanks, if_neg hs, dropSpaces]
      rfl

theorem rdp_pop_suffix {l r : List token_t} {t : token_t}
    (h : rdp_pop l = some (t, r)) : l = t :: r := by
  cases l with
  | nil => simp [rdp_pop] at h
  | cons a as => simp only [rdp_pop, Option.some.injEq, Prod.mk.injEq] at h
                 simp [h.1, h.2]

theorem suffix_split {α : Type} {r c u : List α} {a : α} (h : r <:+ c ++ a :: u) :
    (∃ c1, c1 <:+ c ∧ r = c1 ++ a :: u) ∨ r <:+ u := by
  induction c with
  | nil =>
    rcases List.suffix_cons_iff.mp h with h | h
    · exact Or.inl ⟨[], List.suffix_rfl, by simpa using h⟩
    · exact Or.inr h
  | cons x c' ih =>
    rw [List.cons_append] at h
    rcases List.suffix_cons_iff.mp h with h | h
    · exact Or.inl ⟨x :: c', List.suffix_rfl, by simpa using h⟩
    · rcases ih h with ⟨c1, hc1, rfl⟩ | h
      · exact Or.inl ⟨c1, hc1.trans (List.suffix_cons x c'), rfl⟩
      · exact Or.inr h

/-! ### The remainder of every parse function is a suffix of its input -/

theorem rdp_const_suffix : ∀ l n r, rdp_const l = .ok n r → r <:+ l := by
  intro l n r h
  unfold rdp_const at h
  split at h
  · cases h
  next l1 hcb =>
    split at h
    · cases h
    next t r2 hpop =>
      split at h
      · cases h
        have h1 : l1 <:+ l := rdp_consume_blanks_suffix l l1 hcb
        rw [rdp_pop_suffix hpop] at h1
        exact (List.suffix_cons _ _).trans h1
      · cases h

theorem rdp_suffix : ∀ fuel,
    (∀ l n r, rdp_primary_exp fuel l = .ok n r → r <:+ l) ∧
    (∀ l n r, rdp_unary_exp fuel l = .ok n r → r <:+ l) ∧
    (∀ left l n r, rdp_mult_loop fuel left l = .ok n r → r <:+ l) ∧
    (∀ l n r, rdp_mult_exp fuel l = .ok n r → r <:+ l) ∧
    (∀ left l n r, rdp_additive_loop fuel left l = .ok n r → r <:+ l) ∧
    (∀ l n r, rdp_additive_exp fuel l = .ok n r → r <:+ l) ∧
    (∀ left l n r, rdp_and_loop fuel left l = .ok n r → r <:+ l) ∧
    (∀ l n r, rdp_and_exp fuel l = .ok n r → r <:+ l) ∧
    (∀ left l n r, rdp_xor_loop fuel left l = .ok n r → r <:+ l) ∧
    (∀ l n r, rdp_xor_exp fuel l = .ok n r → r <:+ l) ∧
    (∀ left l n r, rdp_ior_loop fuel left l = .ok n r → r <:+ l) ∧
    (∀ l n r, rdp_ior_exp fuel l = .ok n r → r <:+ l) ∧
    (∀ l n r, rdp_expression fuel l = .ok n r → r <:+ l) := by
  intro fuel
  induction fuel with
  | zero =>
    refine ⟨?_, ?_, ?_, ?_, ?_, ?_, ?_, ?_, ?_, ?_, ?_, ?_, ?_⟩ <;>
      (intros; rename_i h; exact nomatch h)
  | succ f ih =>
    obtain ⟨ihP, ihU, ihML, ihM, ihAL, ihA, ihNL, ihN, ihXL, ihX, ihIL, ihI, ihE⟩ := ih
    refine ⟨?_, ?_, ?_, ?_, ?_, ?_, ?_, ?_, ?_, ?_, ?_, ?_, ?_⟩
    · -- rdp_primary_exp
      intro l n r h
      simp only [rdp_primary_exp] at h
      split at h
      · cases h
      next l1 hcb =>
        have hl1 : l1 <:+ l := rdp_consume_blanks_suffix l l1 hcb
        split at h
        · cases h
        next left hpk =>
          split at h
          · split at h
            next expr l2 hex =>
              have h2 : l2 <:+ l1.tail := ihE _ _ _ hex
              split at h
              · cases h
              next l3 hcb2 =>
                have h3 : l3 <:+ l2 := rdp_consume_blanks_suffix _ _ hcb2
                split at h
                · cases h
                next right l4 hpop =>
                  split at h
                  · cases h
                    rw [rdp_pop_suffix hpop] at h3
                    exact ((((List.suffix_cons _ _).trans h3).trans h2).trans
                      (List.tail_suffix l1)).trans hl1
                  · cases h
            next e hex => cases h
            next hex => cases h
          · exact (rdp_const_suffix l1 n r h).trans hl1
    · -- rdp_unary_exp
      intro l n r h
      simp only [rdp_unary_exp] at h
      exact ihP _ _ _ h
    · -- rdp_mult_loop
      intro left l n r h
      simp only [rdp_mult_loop] at h
      split at h
      · cases h
      next l1 hcb =>
        have hl1 := rdp_consume_blanks_suffix _ _ hcb
        split at h
        · cases h
        next op hpk =>
          split at h
          · split at h
            next n1 r1 hun =>
              exact (((ihML _ _ _ _ h).trans (ihU _ _ _ hun)).trans
                (List.tail_suffix l1)).trans hl1
            next e hun => cases h
            next hun => cases h
          · cases h
            exact hl1
    · -- rdp_mult_exp
      intro l n r h
      simp only [rdp_mult_exp] at h
      split at h
      next left r1 hun => exact (ihML _ _ _ _ h).trans (ihU _ _ _ hun)
      next e hun => cases h
      next hun => cases h
    · -- rdp_additive_loop
      intro left l n r h
      simp only [rdp_additive_loop] at h
      split at h
      · cases h
      next l1 hcb =>
        have hl1 := rdp_consume_blanks_suffix _ _ hcb
        split at h
        · cases h
        next op hpk =>
          split at h
          · split at h
            next n1 r1 hm =>
              exact (((ihAL _ _ _ _ h).trans (ihM _ _ _ hm)).trans
                (List.tail_suffix l1)).trans hl1
            next e hm => cases h
            next hm => cases h
          · cases h
            exact hl1
    · -- rdp_additive_exp
      intro l n r h
      simp only [rdp_additive_exp] at h
      split at h
      next left r1 hm => exact (ihAL _ _ _ _ h).trans (ihM _ _ _ hm)
      next e hm => cases h
      next hm => cases h
    · -- rdp_and_loop
      intro left l n r h
      simp only [rdp_and_loop] at h
      split at h
      · cases h
      next l1 hcb =>
        have hl1 := rdp_consume_blanks_suffix _ _ hcb
        split at h
        · cases h
        next op hpk =>
          split at h
          · split at h
            next n1 r1 ha =>
              exact (((ihNL _ _ _ _ h).trans (ihA _ _ _ ha)).trans
                (List.tail_suffix l1)).trans hl1
            next e ha => cases h
            next ha => cases h
          · cases h
            exact hl1
    · -- rdp_and_exp
      intro l n r h
      simp only [rdp_and_exp] at h
      split at h
      next left r1 ha => exact (ihNL _ _ _ _ h).trans (ihA _ _ _ ha)
      next e ha => cases h
      next ha => cases h
    · -- rdp_xor_loop
      intro left l n r h
      simp only [rdp_xor_loop] at h
      split at h
      · cases h
      next l1 hcb =>
        have hl1 := rdp_consume_blanks_suffix _ _ hcb
        split at h
        · cases h
        next op hpk =>
          split at h
          · split at h
            next n1 r1 hn =>
              exact (((ihXL _ _ _ _ h).trans (ihN _ _ _ hn)).trans
                (List.tail_suffix l1)).trans hl1
            next e hn => cases h
            next hn => cases h
          · cases h
            exact hl1
    · -- rdp_xor_exp
      intro l n r h
      simp only [rdp_xor_exp] at h
      split at h
      next left r1 hn => exact (ihXL _ _ _ _ h).trans (ihN _ _ _ hn)
      next e hn => cases h
      next hn => cases h
    · -- rdp_ior_loop
      intro left l n r h
      simp only [rdp_ior_loop] at h
      split at h
      · cases h
      next l1 hcb =>
        have hl1 := rdp_consume_blanks_suffix _ _ hcb
        split at h
        · cases h
        next op hpk =>
          split at h
          · split at h
            next n1 r1 hx =>
              exact (((ihIL _ _ _ _ h).trans (ihX _ _ _ hx)).trans
                (List.tail_suffix l1)).trans hl1
            next e hx => cases h
            next hx => cases h
          · cases h
            exact hl1
    · -- rdp_ior_exp
      intro l n r h
      simp only [rdp_ior_exp] at h
      split at h
      next left r1 hx => exact (ihIL _ _ _ _ h).trans (ihX _ _ _ hx)
      next e hx => cases h
      next hx => cases h
    · -- rdp_expression
      intro l n r h
      simp only [rdp_expression] at h
      exact ihI _ _ _ h

theorem rdp_expression_suffix {fuel : Nat} {l : List token_t} {n : Node}
    {r : List token_t} (h : rdp_expression fuel l = .ok n r) : r <:+ l :=
  (rdp_suffix fuel).2.2.2.2.2.2.2.2.2.2.2.2 l n r h

/-! ### Where a successful parse stops: the remainder's head token -/

theorem rdp_stop : ∀ fuel,
    (∀ left l n r, rdp_mult_loop fuel left l = .ok n r → HeadStop multLevel r) ∧
    (∀ l n r, rdp_mult_exp fuel l = .ok n r → HeadStop multLevel r) ∧
    (∀ left l n r, HeadStop multLevel l → rdp_additive_loop fuel left l = .ok n r →
      HeadStop addLevel r) ∧
    (∀ l n r, rdp_additive_exp fuel l = .ok n r → HeadStop addLevel r) ∧
    (∀ left l n r, HeadStop addLevel l → rdp_and_loop fuel left l = .ok n r →
      HeadStop andLevel r) ∧
    (∀ l n r, rdp_and_exp fuel l = .ok n r → HeadStop andLevel r) ∧
    (∀ left l n r, HeadStop andLevel l → rdp_xor_loop fuel left l = .ok n r →
      HeadStop xorLevel r) ∧
    (∀ l n r, rdp_xor_exp fuel l = .ok n r → HeadStop xorLevel r) ∧
    (∀ left l n r, HeadStop xorLevel l → rdp_ior_loop fuel left l = .ok n r →
      HeadStop iorLevel r) ∧
    (∀ l n r, rdp_ior_exp fuel l = .ok n r → HeadStop iorLevel r) ∧
    (∀ l n r, rdp_expression fuel l = .ok n r → HeadStop iorLevel r) := by
  intro fuel
  induction fuel with
  | zero =>
    refine ⟨?_, ?_, ?_, ?_, ?_, ?_, ?_, ?_, ?_, ?_, ?_⟩ <;>
      (intros; rename_i h; exact nomatch h)
  | succ f ih =>
    obtain ⟨ihML, ihM, ihAL, ihA, ihNL, ihN, ihXL, ihX, ihIL, ihI, ihE⟩ := ih
    refine ⟨?_, ?_, ?_, ?_, ?_, ?_, ?_, ?_, ?_, ?_, ?_⟩
    · -- rdp_mult_loop
      intro left l n r h
      simp only [rdp_mult_loop] at h
      split at h
      · cases h
      next l1 hcb =>
        obtain ⟨t, r2, rfl, hts⟩ := rdp_consume_blanks_shape _ _ hcb
        split at h
        · cases h
        next op hpk =>
          simp only [rdp_peek, Option.some.injEq] at hpk
          subst hpk
          split at h
          next hop =>
            split at h
            next n1 r1 hun => exact ihML _ _ _ _ h
            next e hun => cases h
            next hun => cases h
          next hop =>
            cases h
            exact ⟨fun hmem => hop (by simpa [multLevel] using hmem), hts⟩
    · -- rdp_mult_exp
      intro l n r h
      simp only [rdp_mult_exp] at h
      split at h
      next left r1 hun => exact ihML _ _ _ _ h
      next e hun => cases h
      next hun => cases h
    · -- rdp_additive_loop
      intro left l n r hin h
      cases l with
      | nil => exact False.elim hin
      | cons t rest =>
        obtain ⟨htm, hts⟩ := hin
        simp only [rdp_additive_loop, rdp_consume_blanks_nospace rest hts,
          rdp_peek] at h
        split at h
        next hop =>
          split at h
          next n1 r1 hm => exact ihAL _ _ _ _ (ihM _ _ _ hm) h
          next e hm => cases h
          next hm => cases h
        next hop =>
          cases h
          refine ⟨fun hmem => ?_, hts⟩
          have htm2 : ¬(t.type = TOK_MULTIPLY ∨ t.type = TOK_DIV ∨ t.type = TOK_MOD) := by
            simpa [multLevel] using htm
          simp only [addLevel, multLevel] at hmem
          simp at hmem
          tauto
    · -- rdp_additive_exp
      intro l n r h
      simp only [rdp_additive_exp] at h
      split at h
      next left r1 hm => exact ihAL _ _ _ _ (ihM _ _ _ hm) h
      next e hm => cases h
      next hm => cases h
    · -- rdp_and_loop
      intro left l n r hin h
      cases l with
      | nil => exact False.elim hin
      | cons t rest =>
        obtain ⟨htm, hts⟩ := hin
        simp only [rdp_and_loop, rdp_consume_blanks_nospace rest hts,
          rdp_peek] at h
        split at h
        next hop =>
          split at h
          next n1 r1 hm => exact ihNL _ _ _ _ (ihA _ _ _ hm) h
          next e hm => cases h
          next hm => cases h
        next hop =>
          cases h
          refine ⟨fun hmem => ?_, hts⟩
          have htm2 : t.type ∉ addLevel := htm
          simp only [andLevel] at hmem
          rcases List.mem_append.mp hmem with hmem | hmem
          · exact htm2 hmem
          · simp at hmem
            exact hop hmem
    · -- rdp_and_exp
      intro l n r h
      simp only [rdp_and_exp] at h
      split at h
      next left r1 hm => exact ihNL _ _ _ _ (ihA _ _ _ hm) h
      next e hm => cases h
      next hm => cases h
    · -- rdp_xor_loop
      intro left l n r hin h
      cases l with
      | nil => exact False.elim hin
      | cons t rest =>
        obtain ⟨htm, hts⟩ := hin
        simp only [rdp_xor_loop, rdp_consume_blanks_nospace rest hts,
          rdp_peek] at h
        split at h
        next hop =>
          split at h
          next n1 r1 hm => exact ihXL _ _ _ _ (ihN _ _ _ hm) h
          next e hm => cases h
          next hm => cases h
        next hop =>
          cases h
          refine ⟨fun hmem => ?_, hts⟩
          simp only [xorLevel] at hmem
          rcases List.mem_append.mp hmem with hmem | hmem
          · exact htm hmem
          · simp at hmem
            exact hop hmem
    · -- rdp_xor_exp
      intro l n r h
      simp only [rdp_xor_exp] at h
      split at h
      next left r1 hm => exact ihXL _ _ _ _ (ihN _ _ _ hm) h
      next e hm => cases h
      next hm => cases h
    · -- rdp_ior_loop
      intro left l n r hin h
      cases l with
      | nil => exact False.elim hin
      | cons t rest =>
        obtain ⟨htm, hts⟩ := hin
        simp only [rdp_ior_loop, rdp_consume_blanks_nospace rest hts,
          rdp_peek] at h
        split at h
        next hop =>
          split at h
          next n1 r1 hm => exact ihIL _ _ _ _ (ihX _ _ _ hm) h
          next e hm => cases h
          next hm => cases h
        next hop =>
          cases h
          refine ⟨fun hmem => ?_, hts⟩
          simp only [iorLevel] at hmem
          rcases List.mem_append.mp hmem with hmem | hmem
          · exact htm hmem
          · simp at hmem
            exact hop hmem
    · -- rdp_ior_exp
      intro l n r h
      simp only [rdp_ior_exp] at h
      split at h
      next left r1 hm => exact ihIL _ _ _ _ (ihX _ _ _ hm) h
      next e hm => cases h
      next hm => cases h
    · -- rdp_expression
      intro l n r h
      simp only [rdp_expression] at h
      exact ihI _ _ _ h

/-- A successful `rdp_expression` stops at a token no fold level reacts
to: its remainder is non-empty and headed by a `Stopper`. -/
theorem rdp_expression_stop {fuel : Nat} {l : List token_t} {n : Node}
    {r : List token_t} (h : rdp_expression fuel l = .ok n r) :
    ∃ t r2, r = t :: r2 ∧ Stopper t := by
  have hs := (rdp_stop fuel).2.2.2.2.2.2.2.2.2.2 l n r h
  cases r with
  | nil => exact False.elim hs
  | cons t r2 => exact ⟨t, r2, rfl, hs.2, hs.1⟩

theorem rdp_unary_suffix {f : Nat} {l n r} (h : rdp_unary_exp f l = .ok n r) :
    r <:+ l := (rdp_suffix f).2.1 _ _ _ h

theorem rdp_mult_loop_suffix {f : Nat} {left l n r}
    (h : rdp_mult_loop f left l = .ok n r) : r <:+ l := (rdp_suffix f).2.2.1 _ _ _ _ h

theorem rdp_mult_suffix {f : Nat} {l n r} (h : rdp_mult_exp f l = .ok n r) :
    r <:+ l := (rdp_suffix f).2.2.2.1 _ _ _ h

theorem rdp_additive_loop_suffix {f : Nat} {left l n r}
    (h : rdp_additive_loop f left l = .ok n r) : r <:+ l :=
  (rdp_suffix f).2.2.2.2.1 _ _ _ _ h

theorem rdp_additive_suffix {f : Nat} {l n r} (h : rdp_additive_exp f l = .ok n r) :
    r <:+ l := (rdp_suffix f).2.2.2.2.2.1 _ _ _ h

theorem rdp_and_loop_suffix {f : Nat} {left l n r}
    (h : rdp_and_loop f left l = .ok n r) : r <:+ l :=
  (rdp_suffix f).2.2.2.2.2.2.1 _ _ _ _ h

theorem rdp_and_suffix {f : Nat} {l n r} (h : rdp_and_exp f l = .ok n r) :
    r <:+ l := (rdp_suffix f).2.2.2.2.2.2.2.1 _ _ _ h

theorem rdp_xor_loop_suffix {f : Nat} {left l n r}
    (h : rdp_xor_loop f left l = .ok n r) : r <:+ l :=
  (rdp_suffix f).2.2.2.2.2.2.2.2.1 _ _ _ _ h

theorem rdp_xor_suffix {f : Nat} {l n r} (h : rdp_xor_exp f l = .ok n r) :
    r <:+ l := (rdp_suffix f).2.2.2.2.2.2.2.2.2.1 _ _ _ h

theorem rdp_ior_loop_suffix {f : Nat} {left l n r}
    (h : rdp_ior_loop f left l = .ok n r) : r <:+ l :=
  (rdp_suffix f).2.2.2.2.2.2.2.2.2.2.1 _ _ _ _ h

theorem rdp_ior_suffix {f : Nat} {l n r} (h : rdp_ior_exp f l = .ok n r) :
    r <:+ l := (rdp_suffix f).2.2.2.2.2.2.2.2.2.2.2.1 _ _ _ h

/-! ### Replacing the unconsumed tail of a successful parse -/

theorem Stopper.nospace {a : token_t} (ha : Stopper a) : a.type ≠ TOK_SPACE := ha.1

theorem Stopper.not_mult {a : token_t} (ha : Stopper a) :
    ¬(a.type = TOK_MULTIPLY ∨ a.type = TOK_DIV ∨ a.type = TOK_MOD) := by
  intro hm
  exact ha.2 (by simp [iorLevel, xorLevel, andLevel, addLevel, multLevel]; tauto)

theorem Stopper.not_add {a : token_t} (ha : Stopper a) :
    ¬(a.type = TOK_PLUS ∨ a.type = TOK_MINUS) := by
  intro hm
  exact ha.2 (by simp [iorLevel, xorLevel, andLevel, addLevel, multLevel]; tauto)

theorem Stopper.not_and {a : token_t} (ha : Stopper a) : ¬a.type = TOK_BWAND := by
  intro hm
  exact ha.2 (by simp [iorLevel, xorLevel, andLevel, addLevel, multLevel]; tauto)

theorem Stopper.not_xor {a : token_t} (ha : Stopper a) : ¬a.type = TOK_BWXOR := by
  intro hm
  exact ha.2 (by simp [iorLevel, xorLevel, andLevel, addLevel, multLevel]; tauto)

theorem Stopper.not_ior {a : token_t} (ha : Stopper a) : ¬a.type = TOK_BWOR := by
  intro hm
  exact ha.2 (by simp [iorLevel, xorLevel, andLevel, addLevel, multLevel]; tauto)

theorem suffix_overrun {α : Type} {c2 u : List α} {a : α}
    (h : c2 ++ a :: u <:+ u) : False := by
  have hlen := h.length_le
  simp [List.length_append] at hlen
  omega

theorem rdp_const_replace {a b : token_t} (ha : Stopper a) (hb : Stopper b)
    (u v : List token_t) :
    ∀ c c2 n, rdp_const (c ++ a :: u) = .ok n (c2 ++ a :: u) →
      rdp_const (c ++ b :: v) = .ok n (c2 ++ b :: v) := by
  intro c c2 n h
  unfold rdp_const at h ⊢
  rw [rdp_consume_blanks_append c u ha.nospace] at h
  rcases hdw : dropSpaces c with _ | ⟨t, c'⟩ <;> rw [hdw] at h
  · simp only [List.nil_append, rdp_pop] at h
    split at h
    next ht =>
      injection h with h1 h2
      exfalso
      have hlen := congrArg List.length h2
      simp [List.length_append] at hlen
      omega
    next ht => cases h
  · simp only [List.cons_append, rdp_pop] at h
    split at h
    next ht =>
      injection h with h1 h2
      have hc2 : c' = c2 := List.append_cancel_right h2
      subst hc2
      rw [rdp_consume_blanks_append c v hb.nospace, hdw]
      simp only [List.cons_append, rdp_pop, if_pos ht, h1]
    next ht => cases h

theorem self_cons_eq_append {α : Type} {a : α} {u c2 : List α}
    (h : a :: u = c2 ++ a :: u) : c2 = [] := by
  cases c2 with
  | nil => rfl
  | cons x xs =>
    exfalso
    have hlen := congrArg List.length h
    simp [List.length_append] at hlen
    omega

theorem rdp_replace {a b : token_t} (ha : Stopper a) (hb : Stopper b)
    (u v : List token_t) : ∀ fuel,
    (∀ c c2 n, rdp_primary_exp fuel (c ++ a :: u) = .ok n (c2 ++ a :: u) →
      rdp_primary_exp fuel (c ++ b :: v) = .ok n (c2 ++ b :: v)) ∧
    (∀ c c2 n, rdp_unary_exp fuel (c ++ a :: u) = .ok n (c2 ++ a :: u) →
      rdp_unary_exp fuel (c ++ b :: v) = .ok n (c2 ++ b :: v)) ∧
    (∀ left c c2 n, rdp_mult_loop fuel left (c ++ a :: u) = .ok n (c2 ++ a :: u) →
      rdp_mult_loop fuel left (c ++ b :: v) = .ok n (c2 ++ b :: v)) ∧
    (∀ c c2 n, rdp_mult_exp fuel (c ++ a :: u) = .ok n (c2 ++ a :: u) →
      rdp_mult_exp fuel (c ++ b :: v) = .ok n (c2 ++ b :: v)) ∧
    (∀ left c c2 n, rdp_additive_loop fuel left (c ++ a :: u) = .ok n (c2 ++ a :: u) →
      rdp_additive_loop fuel left (c ++ b :: v) = .ok n (c2 ++ b :: v)) ∧
    (∀ c c2 n, rdp_additive_exp fuel (c ++ a :: u) = .ok n (c2 ++ a :: u) →
      rdp_additive_exp fuel (c ++ b :: v) = .ok n (c2 ++ b :: v)) ∧
    (∀ left c c2 n, rdp_and_loop fuel left (c ++ a :: u) = .ok n (c2 ++ a :: u) →
      rdp_and_loop fuel left (c ++ b :: v) = .ok n (c2 ++ b :: v)) ∧
    (∀ c c2 n, rdp_and_exp fuel (c ++ a :: u) = .ok n (c2 ++ a :: u) →
      rdp_and_exp fuel (c ++ b :: v) = .ok n (c2 ++ b :: v)) ∧
    (∀ left c c2 n, rdp_xor_loop fuel left (c ++ a :: u) = .ok n (c2 ++ a :: u) →
      rdp_xor_loop fuel left (c ++ b :: v) = .ok n (c2 ++ b :: v)) ∧
    (∀ c c2 n, rdp_xor_exp fuel (c ++ a :: u) = .ok n (c2 ++ a :: u) →
      rdp_xor_exp fuel (c ++ b :: v) = .ok n (c2 ++ b :: v)) ∧
    (∀ left c c2 n, rdp_ior_loop fuel left (c ++ a :: u) = .ok n (c2 ++ a :: u) →
      rdp_ior_loop fuel left (c ++ b :: v) = .ok n (c2 ++ b :: v)) ∧
    (∀ c c2 n, rdp_ior_exp fuel (c ++ a :: u) = .ok n (c2 ++ a :: u) →
      rdp_ior_exp fuel (c ++ b :: v) = .ok n (c2 ++ b :: v)) ∧
    (∀ c c2 n, rdp_expression fuel (c ++ a :: u) = .ok n (c2 ++ a :: u) →
      rdp_expression fuel (c ++ b :: v) = .ok n (c2 ++ b :: v)) := by
  intro fuel
  induction fuel with
  | zero =>
    refine ⟨?_, ?_, ?_, ?_, ?_, ?_, ?_, ?_, ?_, ?_, ?_, ?_, ?_⟩ <;>
      (intros; rename_i h; exact nomatch h)
  | succ f ih =>
    obtain ⟨ihP, ihU, ihML, ihM, ihAL, ihA, ihNL, ihN, ihXL, ihX, ihIL, ihI, ihE⟩ := ih
    refine ⟨?_, ?_, ?_, ?_, ?_, ?_, ?_, ?_, ?_, ?_, ?_, ?_, ?_⟩
    · -- rdp_primary_exp
      intro c c2 n h
      simp only [rdp_primary_exp] at h ⊢
      rw [rdp_consume_blanks_append c u ha.nospace] at h
      rcases hdw : dropSpaces c with _ | ⟨t, c'⟩ <;> rw [hdw] at h
      · -- the significant head is the boundary token a itself: every
        -- branch contradicts the shape of the final remainder
        exfalso
        simp only [List.nil_append, rdp_peek, List.tail_cons] at h
        split at h
        · -- a begins a parenthesized expression
          split at h
          next expr l2 hex =>
            have h2 : l2 <:+ u := rdp_expression_suffix hex
            split at h
            · cases h
            next l3 hcb2 =>
              have h3 : l3 <:+ l2 := rdp_consume_blanks_suffix _ _ hcb2
              split at h
              · cases h
              next right l4 hpop =>
                split at h
                next hrp =>
                  injection h with h1 h2eq
                  rw [rdp_pop_suffix hpop] at h3
                  have h4 : l4 <:+ l2 := (List.suffix_cons _ _).trans h3
                  exact suffix_overrun (h2eq ▸ (h4.trans h2))
                next hrp => cases h
          next e hex => cases h
          next hex => cases h
        · -- a must be a numeric constant
          unfold rdp_const at h
          rw [rdp_consume_blanks_nospace u ha.nospace] at h
          simp only [rdp_pop] at h
          split at h
          next hnum =>
            injection h with h1 h2eq
            have hlen := congrArg List.length h2eq
            simp [List.length_append] at hlen
            omega
          next hnum => cases h
      · -- the significant head token t lies strictly before the boundary
        simp only [List.cons_append, rdp_peek, List.tail_cons] at h
        by_cases hlp : t.type = TOK_LPAREN
        · rw [if_pos hlp] at h
          split at h
          next expr l2 hex =>
            rcases suffix_split (rdp_expression_suffix hex) with ⟨c1, hc1, rfl⟩ | hlow
            · have hex2 := ihE c' c1 expr hex
              rw [rdp_consume_blanks_append c1 u ha.nospace] at h
              rcases hdw2 : dropSpaces c1 with _ | ⟨rt, rc⟩ <;> rw [hdw2] at h
              · simp only [List.nil_append, rdp_pop] at h
                split at h
                next hrp =>
                  injection h with h1 h2eq
                  exfalso
                  have hlen := congrArg List.length h2eq
                  simp [List.length_append] at hlen
                  omega
                next hrp => cases h
              · simp only [List.cons_append, rdp_pop] at h
                split at h
                next hrp =>
                  injection h with h1 h2eq
                  have hc2 : rc = c2 := List.append_cancel_right h2eq
                  subst hc2
                  subst h1
                  rw [rdp_consume_blanks_append c v hb.nospace, hdw]
                  simp only [List.cons_append, rdp_peek, List.tail_cons, if_pos hlp,
                    hex2, rdp_consume_blanks_append c1 v hb.nospace, hdw2, rdp_pop,
                    if_pos hrp]
                next hrp => cases h
            · exfalso
              split at h
              · cases h
              next l3 hcb2 =>
                have h3 : l3 <:+ l2 := rdp_consume_blanks_suffix _ _ hcb2
                split at h
                · cases h
                next right l4 hpop =>
                  split at h
                  next hrp =>
                    injection h with h1 h2eq
                    rw [rdp_pop_suffix hpop] at h3
                    have h4 : l4 <:+ l2 := (List.suffix_cons _ _).trans h3
                    exact suffix_overrun (h2eq ▸ (h4.trans hlow))
                  next hrp => cases h
          next e hex => cases h
          next hex => cases h
        · rw [if_neg hlp] at h
          have hconst := rdp_const_replace ha hb u v (t :: c') c2 n (by simpa using h)
          rw [rdp_consume_blanks_append c v hb.nospace, hdw]
          simp only [List.cons_append, rdp_peek, if_neg hlp]
          simpa using hconst
    · -- rdp_unary_exp
      intro c c2 n h
      simp only [rdp_unary_exp] at h ⊢
      exact ihP c c2 n h
    · -- rdp_mult_loop
      intro left c c2 n h
      simp only [rdp_mult_loop] at h
      rw [rdp_consume_blanks_append c u ha.nospace] at h
      rcases hdw : dropSpaces c with _ | ⟨t, c'⟩ <;> rw [hdw] at h
      · simp only [List.nil_append, rdp_peek] at h
        rw [if_neg ha.not_mult] at h
        injection h with h1 h2eq
        have hc2 : c2 = [] := self_cons_eq_append h2eq
        subst hc2
        subst h1
        simp only [rdp_mult_loop, rdp_consume_blanks_append c v hb.nospace, hdw,
          List.nil_append, rdp_peek]
        rw [if_neg hb.not_mult]
      · simp only [List.cons_append, rdp_peek, List.tail_cons] at h
        by_cases hop : t.type = TOK_MULTIPLY ∨ t.type = TOK_DIV ∨ t.type = TOK_MOD
        · rw [if_pos hop] at h
          split at h
          next n1 r1 hun =>
            rcases suffix_split (rdp_unary_suffix hun) with ⟨c1, hc1, rfl⟩ | hlow
            · have hun2 := ihU c' c1 n1 hun
              have hrec := ihML (ast_binary_operator t.type left n1) c1 c2 n h
              simp only [rdp_mult_loop, rdp_consume_blanks_append c v hb.nospace, hdw,
                List.cons_append, rdp_peek, List.tail_cons, if_pos hop, hun2]
              exact hrec
            · exfalso
              exact suffix_overrun ((rdp_mult_loop_suffix h).trans hlow)
          next e hun => cases h
          next hun => cases h
        · rw [if_neg hop] at h
          injection h with h1 h2eq
          have h2b : (t :: c') ++ a :: u = c2 ++ a :: u := by simpa using h2eq
          have hc2 : t :: c' = c2 := List.append_cancel_right h2b
          subst hc2
          subst h1
          simp only [rdp_mult_loop, rdp_consume_blanks_append c v hb.nospace, hdw,
            List.cons_append, rdp_peek]
          rw [if_neg hop]
    · -- rdp_mult_exp
      intro c c2 n h
      simp only [rdp_mult_exp] at h ⊢
      split at h
      next left r1 hun =>
        rcases suffix_split (rdp_unary_suffix hun) with ⟨c1, hc1, rfl⟩ | hlow
        · rw [ihU c c1 left hun]
          exact ihML left c1 c2 n h
        · exfalso
          exact suffix_overrun ((rdp_mult_loop_suffix h).trans hlow)
      next e hun => cases h
      next hun => cases h
    · -- rdp_additive_loop
      intro left c c2 n h
      simp only [rdp_additive_loop] at h
      rw [rdp_consume_blanks_append c u ha.nospace] at h
      rcases hdw : dropSpaces c with _ | ⟨t, c'⟩ <;> rw [hdw] at h
      · simp only [List.nil_append, rdp_peek] at h
        rw [if_neg ha.not_add] at h
        injection h with h1 h2eq
        have hc2 : c2 = [] := self_cons_eq_append h2eq
        subst hc2
        subst h1
        simp only [rdp_additive_loop, rdp_consume_blanks_append c v hb.nospace, hdw,
          List.nil_append, rdp_peek]
        rw [if_neg hb.not_add]
      · simp only [List.cons_append, rdp_peek, List.tail_cons] at h
        by_cases hop : t.type = TOK_PLUS ∨ t.type = TOK_MINUS
        · rw [if_pos hop] at h
          split at h
          next n1 r1 hm =>
            rcases suffix_split (rdp_mult_suffix hm) with ⟨c1, hc1, rfl⟩ | hlow
            · have hm2 := ihM c' c1 n1 hm
              have hrec := ihAL (ast_binary_operator t.type left n1) c1 c2 n h
              simp only [rdp_additive_loop, rdp_consume_blanks_append c v hb.nospace,
                hdw, List.cons_append, rdp_peek, List.tail_cons, if_pos hop, hm2]
              exact hrec
            · exfalso
              exact suffix_overrun ((rdp_additive_loop_suffix h).trans hlow)
          next e hm => cases h
          next hm => cases h
        · rw [if_neg hop] at h
          injection h with h1 h2eq
          have h2b : (t :: c') ++ a :: u = c2 ++ a :: u := by simpa using h2eq
          have hc2 : t :: c' = c2 := List.append_cancel_right h2b
          subst hc2
          subst h1
          simp only [rdp_additive_loop, rdp_consume_blanks_append c v hb.nospace, hdw,
            List.cons_append, rdp_peek]
          rw [if_neg hop]
    · -- rdp_additive_exp
      intro c c2 n h
      simp only [rdp_additive_exp] at h ⊢
      split at h
      next left r1 hm =>
        rcases suffix_split (rdp_mult_suffix hm) with ⟨c1, hc1, rfl⟩ | hlow
        · rw [ihM c c1 left hm]
          exact ihAL left c1 c2 n h
        · exfalso
          exact suffix_overrun ((rdp_additive_loop_suffix h).trans hlow)
      next e hm => cases h
      next hm => cases h
    · -- rdp_and_loop
      intro left c c2 n h
      simp only [rdp_and_loop] at h
      rw [rdp_consume_blanks_append c u ha.nospace] at h
      rcases hdw : dropSpaces c with _ | ⟨t, c'⟩ <;> rw [hdw] at h
      · simp only [List.nil_append, rdp_peek] at h
        rw [if_neg ha.not_and] at h
        injection h with h1 h2eq
        have hc2 : c2 = [] := self_cons_eq_append h2eq
        subst hc2
        subst h1
        simp only [rdp_and_loop, rdp_consume_blanks_append c v hb.nospace, hdw,
          List.nil_append, rdp_peek]
        rw [if_neg hb.not_and]
      · simp only [List.cons_append, rdp_peek, List.tail_cons] at h
        by_cases hop : t.type = TOK_BWAND
        · rw [if_pos hop] at h
          split at h
          next n1 r1 hm =>
            rcases suffix_split (rdp_additive_suffix hm) with ⟨c1, hc1, rfl⟩ | hlow
            · have hm2 := ihA c' c1 n1 hm
              have hrec := ihNL (ast_binary_operator t.type left n1) c1 c2 n h
              simp only [rdp_and_loop, rdp_consume_blanks_append c v hb.nospace,
                hdw, List.cons_append, rdp_peek, List.tail_cons, if_pos hop, hm2]
              exact hrec
            · exfalso
              exact suffix_overrun ((rdp_and_loop_suffix h).trans hlow)
          next e hm => cases h
          next hm => cases h
        · rw [if_neg hop] at h
          injection h with h1 h2eq
          have h2b : (t :: c') ++ a :: u = c2 ++ a :: u := by simpa using h2eq
          have hc2 : t :: c' = c2 := List.append_cancel_right h2b
          subst hc2
          subst h1
          simp only [rdp_and_loop, rdp_consume_blanks_append c v hb.nospace, hdw,
            List.cons_append, rdp_peek]
          rw [if_neg hop]
    · -- rdp_and_exp
      intro c c2 n h
      simp only [rdp_and_exp] at h ⊢
      split at h
      next left r1 hm =>
        rcases suffix_split (rdp_additive_suffix hm) with ⟨c1, hc1, rfl⟩ | hlow
        · rw [ihA c c1 left hm]
          exact ihNL left c1 c2 n h
        · exfalso
          exact suffix_overrun ((rdp_and_loop_suffix h).trans hlow)
      next e hm => cases h
      next hm => cases h
    · -- rdp_xor_loop
      intro left c c2 n h
      simp only [rdp_xor_loop] at h
      rw [rdp_consume_blanks_append c u ha.nospace] at h
      rcases hdw : dropSpaces c with _ | ⟨t, c'⟩ <;> rw [hdw] at h
      · simp only [List.nil_append, rdp_peek] at h
        rw [if_neg ha.not_xor] at h
        injection h with h1 h2eq
        have hc2 : c2 = [] := self_cons_eq_append h2eq
        subst hc2
        subst h1
        simp only [rdp_xor_loop, rdp_consume_blanks_append c v hb.nospace, hdw,
          List.nil_append, rdp_peek]
        rw [if_neg hb.not_xor]
      · simp only [List.cons_append, rdp_peek, List.tail_cons] at h
        by_cases hop : t.type = TOK_BWXOR
        · rw [if_pos hop] at h
          split at h
          next n1 r1 hm =>
            rcases suffix_split (rdp_and_suffix hm) with ⟨c1, hc1, rfl⟩ | hlow
            · have hm2 := ihN c' c1 n1 hm
              have hrec := ihXL (ast_binary_operator t.type left n1) c1 c2 n h
              simp only [rdp_xor_loop, rdp_consume_blanks_append c v hb.nospace,
                hdw, List.cons_append, rdp_peek, List.tail_cons, if_pos hop, hm2]
              exact hrec
            · exfalso
              exact suffix_overrun ((rdp_xor_loop_suffix h).trans hlow)
          next e hm => cases h
          next hm => cases h
        · rw [if_neg hop] at h
          injection h with h1 h2eq
          have h2b : (t :: c') ++ a :: u = c2 ++ a :: u := by simpa using h2eq
          have hc2 : t :: c' = c2 := List.append_cancel_right h2b
          subst hc2
          subst h1
          simp only [rdp_xor_loop, rdp_consume_blanks_append c v hb.nospace, hdw,
            List.cons_append, rdp_peek]
          rw [if_neg hop]
    · -- rdp_xor_exp
      intro c c2 n h
      simp only [rdp_xor_exp] at h ⊢
      split at h
      next left r1 hm =>
        rcases suffix_split (rdp_and_suffix hm) with ⟨c1, hc1, rfl⟩ | hlow
        · rw [ihN c c1 left hm]
          exact ihXL left c1 c2 n h
        · exfalso
          exact suffix_overrun ((rdp_xor_loop_suffix h).trans hlow)
      next e hm => cases h
      next hm => cases h
    · -- rdp_ior_loop
      intro left c c2 n h
      simp only [rdp_ior_loop] at h
      rw [rdp_consume_blanks_append c u ha.nospace] at h
      rcases hdw : dropSpaces c with _ | ⟨t, c'⟩ <;> rw [hdw] at h
      · simp only [List.nil_append, rdp_peek] at h
        rw [if_neg ha.not_ior] at h
        injection h with h1 h2eq
        have hc2 : c2 = [] := self_cons_eq_append h2eq
        subst hc2
        subst h1
        simp only [rdp_ior_loop, rdp_consume_blanks_append c v hb.nospace, hdw,
          List.nil_append, rdp_peek]
        rw [if_neg hb.not_ior]
      · simp only [List.cons_append, rdp_peek, List.tail_cons] at h
        by_cases hop : t.type = TOK_BWOR
        · rw [if_pos hop] at h
          split at h
          next n1 r1 hm =>
            rcases suffix_split (rdp_xor_suffix hm) with ⟨c1, hc1, rfl⟩ | hlow
            · have hm2 := ihX c' c1 n1 hm
              have hrec := ihIL (ast_binary_operator t.type left n1) c1 c2 n h
              simp only [rdp_ior_loop, rdp_consume_blanks_append c v hb.nospace,
                hdw, List.cons_append, rdp_peek, List.tail_cons, if_pos hop, hm2]
              exact hrec
            · exfalso
              exact suffix_overrun ((rdp_ior_loop_suffix h).trans hlow)
          next e hm => cases h
          next hm => cases h
        · rw [if_neg hop] at h
          injection h with h1 h2eq
          have h2b : (t :: c') ++ a :: u = c2 ++ a :: u := by simpa using h2eq
          have hc2 : t :: c' = c2 := List.append_cancel_right h2b
          subst hc2
          subst h1
          simp only [rdp_ior_loop, rdp_consume_blanks_append c v hb.nospace, hdw,
            List.cons_append, rdp_peek]
          rw [if_neg hop]
    · -- rdp_ior_exp
      intro c c2 n h
      simp only [rdp_ior_exp] at h ⊢
      split at h
      next left r1 hm =>
        rcases suffix_split (rdp_xor_suffix hm) with ⟨c1, hc1, rfl⟩ | hlow
        · rw [ihX c c1 left hm]
          exact ihIL left c1 c2 n h
        · exfalso
          exact suffix_overrun ((rdp_ior_loop_suffix h).trans hlow)
      next e hm => cases h
      next hm => cases h
    · -- rdp_expression
      intro c c2 n h
      simp only [rdp_expression] at h ⊢
      exact ihI c c2 n h

/-! ### Every node a successful parse returns is a good node -/

theorem rdp_const_good : ∀ l n r, rdp_const l = .ok n r → goodNode n = true := by
  intro l n r h
  unfold rdp_const at h
  split at h
  · cases h
  next l1 hcb =>
    split at h
    · cases h
    next t r2 hpop =>
      split at h
      · cases h
        rfl
      · cases h

theorem rdp_good : ∀ fuel,
    (∀ l n r, rdp_primary_exp fuel l = .ok n r → goodNode n = true) ∧
    (∀ l n r, rdp_unary_exp fuel l = .ok n r → goodNode n = true) ∧
    (∀ left l n r, goodNode left = true → rdp_mult_loop fuel left l = .ok n r →
      goodNode n = true) ∧
    (∀ l n r, rdp_mult_exp fuel l = .ok n r → goodNode n = true) ∧
    (∀ left l n r, goodNode left = true → rdp_additive_loop fuel left l = .ok n r →
      goodNode n = true) ∧
    (∀ l n r, rdp_additive_exp fuel l = .ok n r → goodNode n = true) ∧
    (∀ left l n r, goodNode left = true → rdp_and_loop fuel left l = .ok n r →
      goodNode n = true) ∧
    (∀ l n r, rdp_and_exp fuel l = .ok n r → goodNode n = true) ∧
    (∀ left l n r, goodNode left = true → rdp_xor_loop fuel left l = .ok n r →
      goodNode n = true) ∧
    (∀ l n r, rdp_xor_exp fuel l = .ok n r → goodNode n = true) ∧
    (∀ left l n r, goodNode left = true → rdp_ior_loop fuel left l = .ok n r →
      goodNode n = true) ∧
    (∀ l n r, rdp_ior_exp fuel l = .ok n r → goodNode n = true) ∧
    (∀ l n r, rdp_expression fuel l = .ok n r → goodNode n = true) := by
  intro fuel
  induction fuel with
  | zero =>
    refine ⟨?_, ?_, ?_, ?_, ?_, ?_, ?_, ?_, ?_, ?_, ?_, ?_, ?_⟩ <;>
      (intros; rename_i h; exact nomatch h)
  | succ f ih =>
    obtain ⟨ihP, ihU, ihML, ihM, ihAL, ihA, ihNL, ihN, ihXL, ihX, ihIL, ihI, ihE⟩ := ih
    refine ⟨?_, ?_, ?_, ?_, ?_, ?_, ?_, ?_, ?_, ?_, ?_, ?_, ?_⟩
    · -- rdp_primary_exp
      intro l n r h
      simp only [rdp_primary_exp] at h
      split at h
      · cases h
      next l1 hcb =>
        split at h
        · cases h
        next left hpk =>
          split at h
          · split at h
            next expr l2 hex =>
              split at h
              · cases h
              next l3 hcb2 =>
                split at h
                · cases h
                next right l4 hpop =>
                  split at h
                  · cases h
                    exact ihE _ _ _ hex
                  · cases h
            next e hex => cases h
            next hex => cases h
          · exact rdp_const_good _ _ _ h
    · -- rdp_unary_exp
      intro l n r h
      simp only [rdp_unary_exp] at h
      exact ihP _ _ _ h
    · -- rdp_mult_loop
      intro left l n r hg h
      simp only [rdp_mult_loop] at h
      split at h
      · cases h
      next l1 hcb =>
        split at h
        · cases h
        next op hpk =>
          split at h
          next hop =>
            split at h
            next n1 r1 hun =>
              have hg1 := ihU _ _ _ hun
              have hc : op.type ∈ iorLevel := by
                rcases hop with h1 | h1 | h1 <;> rw [h1] <;> decide
              exact ihML _ _ _ _
                (by simp [ast_binary_operator, goodNode, hc, hg, hg1]) h
            next e hun => cases h
            next hun => cases h
          next hop =>
            cases h
            exact hg
    · -- rdp_mult_exp
      intro l n r h
      simp only [rdp_mult_exp] at h
      split at h
      next left r1 hun => exact ihML _ _ _ _ (ihU _ _ _ hun) h
      next e hun => cases h
      next hun => cases h
    · -- rdp_additive_loop
      intro left l n r hg h
      simp only [rdp_additive_loop] at h
      split at h
      · cases h
      next l1 hcb =>
        split at h
        · cases h
        next op hpk =>
          split at h
          next hop =>
            split at h
            next n1 r1 hm =>
              have hg1 := ihM _ _ _ hm
              have hc : op.type ∈ iorLevel := by
                rcases hop with h1 | h1 <;> rw [h1] <;> decide
              exact ihAL _ _ _ _
                (by simp [ast_binary_operator, goodNode, hc, hg, hg1]) h
            next e hm => cases h
            next hm => cases h
          next hop =>
            cases h
            exact hg
    · -- rdp_additive_exp
      intro l n r h
      simp only [rdp_additive_exp] at h
      split at h
      next left r1 hm => exact ihAL _ _ _ _ (ihM _ _ _ hm) h
      next e hm => cases h
      next hm => cases h
    · -- rdp_and_loop
      intro left l n r hg h
      simp only [rdp_and_loop] at h
      split at h
      · cases h
      next l1 hcb =>
        split at h
        · cases h
        next op hpk =>
          split at h
          next hop =>
            split at h
            next n1 r1 hm =>
              have hg1 := ihA _ _ _ hm
              have hc : op.type ∈ iorLevel := by rw [hop]; decide
              exact ihNL _ _ _ _
                (by simp [ast_binary_operator, goodNode, hc, hg, hg1]) h
            next e hm => cases h
            next hm => cases h
          next hop =>
            cases h
            exact hg
    · -- rdp_and_exp
      intro l n r h
      simp only [rdp_and_exp] at h
      split at h
      next left r1 hm => exact ihNL _ _ _ _ (ihA _ _ _ hm) h
      next e hm => cases h
      next hm => cases h
    · -- rdp_xor_loop
      intro left l n r hg h
      simp only [rdp_xor_loop] at h
      split at h
      · cases h
      next l1 hcb =>
        split at h
        · cases h
        next op hpk =>
          split at h
          next hop =>
            split at h
            next n1 r1 hm =>
              have hg1 := ihN _ _ _ hm
              have hc : op.type ∈ iorLevel := by rw [hop]; decide
              exact ihXL _ _ _ _
                (by simp [ast_binary_operator, goodNode, hc, hg, hg1]) h
            next e hm => cases h
            next hm => cases h
          next hop =>
            cases h
            exact hg
    · -- rdp_xor_exp
      intro l n r h
      simp only [rdp_xor_exp] at h
      split at h
      next left r1 hm => exact ihXL _ _ _ _ (ihN _ _ _ hm) h
      next e hm => cases h
      next hm => cases h
    · -- rdp_ior_loop
      intro left l n r hg h
      simp only [rdp_ior_loop] at h
      split at h
      · cases h
      next l1 hcb =>
        split at h
        · cases h
        next op hpk =>
          split at h
          next hop =>
            split at h
            next n1 r1 hm =>
              have hg1 := ihX _ _ _ hm
              have hc : op.type ∈ iorLevel := by rw [hop]; decide
              exact ihIL _ _ _ _
                (by simp [ast_binary_operator, goodNode, hc, hg, hg1]) h
            next e hm => cases h
            next hm => cases h
          next hop =>
            cases h
            exact hg
    · -- rdp_ior_exp
      intro l n r h
      simp only [rdp_ior_exp] at h
      split at h
      next left r1 hm => exact ihIL _ _ _ _ (ihX _ _ _ hm) h
      next e hm => cases h
      next hm => cases h
    · -- rdp_expression
      intro l n r h
      simp only [rdp_expression] at h
      exact ihI _ _ _ h

/-! ### With the end-of-input token in place, no token access is out of bounds -/

theorem rdp_const_safe : ∀ l, HasEOF l → SafeRes (rdp_const l) := by
  intro l hE
  obtain ⟨c, t, rfl, ht⟩ := hE
  unfold rdp_const
  rw [rdp_consume_blanks_append c [] (show t.type ≠ TOK_SPACE by simp [ht])]
  cases hdw : dropSpaces c with
  | nil =>
    simp only [List.nil_append, rdp_pop]
    rw [if_neg (show ¬t.type = TOK_NUMBER by simp [ht])]
    exact Or.inr (Or.inl rfl)
  | cons x c' =>
    simp only [List.cons_append, rdp_pop]
    by_cases hx : x.type = TOK_NUMBER
    · rw [if_pos hx]
      exact Or.inl ⟨_, _, rfl, ⟨c', t, rfl, ht⟩⟩
    · rw [if_neg hx]
      exact Or.inr (Or.inl rfl)

theorem rdp_safe : ∀ fuel,
    (∀ l, HasEOF l → SafeRes (rdp_primary_exp fuel l)) ∧
    (∀ l, HasEOF l → SafeRes (rdp_unary_exp fuel l)) ∧
    (∀ left l, HasEOF l → SafeRes (rdp_mult_loop fuel left l)) ∧
    (∀ l, HasEOF l → SafeRes (rdp_mult_exp fuel l)) ∧
    (∀ left l, HasEOF l → SafeRes (rdp_additive_loop fuel left l)) ∧
    (∀ l, HasEOF l → SafeRes (rdp_additive_exp fuel l)) ∧
    (∀ left l, HasEOF l → SafeRes (rdp_and_loop fuel left l)) ∧
    (∀ l, HasEOF l → SafeRes (rdp_and_exp fuel l)) ∧
    (∀ left l, HasEOF l → SafeRes (rdp_xor_loop fuel left l)) ∧
    (∀ l, HasEOF l → SafeRes (rdp_xor_exp fuel l)) ∧
    (∀ left l, HasEOF l → SafeRes (rdp_ior_loop fuel left l)) ∧
    (∀ l, HasEOF l → SafeRes (rdp_ior_exp fuel l)) ∧
    (∀ l, HasEOF l → SafeRes (rdp_expression fuel l)) := by
  intro fuel
  induction fuel with
  | zero =>
    refine ⟨?_, ?_, ?_, ?_, ?_, ?_, ?_, ?_, ?_, ?_, ?_, ?_, ?_⟩ <;>
      (intros; exact Or.inr (Or.inr rfl))
  | succ f ih =>
    obtain ⟨ihP, ihU, ihML, ihM, ihAL, ihA, ihNL, ihN, ihXL, ihX, ihIL, ihI, ihE⟩ := ih
    refine ⟨?_, ?_, ?_, ?_, ?_, ?_, ?_, ?_, ?_, ?_, ?_, ?_, ?_⟩
    · -- rdp_primary_exp
      intro l hE
      obtain ⟨c, t, rfl, ht⟩ := hE
      simp only [rdp_primary_exp,
        rdp_consume_blanks_append c [] (show t.type ≠ TOK_SPACE by simp [ht])]
      cases hdw : dropSpaces c with
      | nil =>
        simp only [List.nil_append, rdp_peek, List.tail_cons]
        rw [if_neg (show ¬t.type = TOK_LPAREN by simp [ht])]
        exact rdp_const_safe _ ⟨[], t, rfl, ht⟩
      | cons x c' =>
        simp only [List.cons_append, rdp_peek, List.tail_cons]
        by_cases hx : x.type = TOK_LPAREN
        · rw [if_pos hx]
          rcases ihE (c' ++ [t]) ⟨c', t, rfl, ht⟩ with ⟨expr, l2, hex, hE2⟩ | hex | hex <;>
            simp only [hex]
          · obtain ⟨c2, t2, rfl, ht2⟩ := hE2
            simp only
              [rdp_consume_blanks_append c2 [] (show t2.type ≠ TOK_SPACE by simp [ht2])]
            cases hdw2 : dropSpaces c2 with
            | nil =>
              simp only [List.nil_append, rdp_pop]
              rw [if_neg (show ¬t2.type = TOK_RPAREN by simp [ht2])]
              exact Or.inr (Or.inl rfl)
            | cons y c2' =>
              simp only [List.cons_append, rdp_pop]
              by_cases hy : y.type = TOK_RPAREN
              · rw [if_pos hy]
                exact Or.inl ⟨expr, _, rfl, ⟨c2', t2, rfl, ht2⟩⟩
              · rw [if_neg hy]
                exact Or.inr (Or.inl rfl)
          · exact Or.inr (Or.inl rfl)
          · exact Or.inr (Or.inr rfl)
        · rw [if_neg hx]
          exact rdp_const_safe _ ⟨x :: c', t, rfl, ht⟩
    · -- rdp_unary_exp
      intro l hE
      simp only [rdp_unary_exp]
      exact ihP l hE
    · -- rdp_mult_loop
      intro left l hE
      obtain ⟨c, t, rfl, ht⟩ := hE
      simp only [rdp_mult_loop,
        rdp_consume_blanks_append c [] (show t.type ≠ TOK_SPACE by simp [ht])]
      cases hdw : dropSpaces c with
      | nil =>
        simp only [List.nil_append, rdp_peek]
        rw [if_neg (show ¬(t.type = TOK_MULTIPLY ∨ t.type = TOK_DIV ∨ t.type = TOK_MOD)
          by simp [ht])]
        exact Or.inl ⟨left, _, rfl, ⟨[], t, rfl, ht⟩⟩
      | cons x c' =>
        simp only [List.cons_append, rdp_peek, List.tail_cons]
        by_cases hx : x.type = TOK_MULTIPLY ∨ x.type = TOK_DIV ∨ x.type = TOK_MOD
        · rw [if_pos hx]
          rcases ihU (c' ++ [t]) ⟨c', t, rfl, ht⟩ with ⟨n1, r1, hun, hE1⟩ | hun | hun <;>
            simp only [hun]
          · exact ihML _ r1 hE1
          · exact Or.inr (Or.inl rfl)
          · exact Or.inr (Or.inr rfl)
        · rw [if_neg hx]
          exact Or.inl ⟨left, _, rfl, ⟨x :: c', t, rfl, ht⟩⟩
    · -- rdp_mult_exp
      intro l hE
      simp only [rdp_mult_exp]
      rcases ihU l hE with ⟨n1, r1, hun, hE1⟩ | hun | hun <;> simp only [hun]
      · exact ihML _ _ hE1
      · exact Or.inr (Or.inl rfl)
      · exact Or.inr (Or.inr rfl)
    · -- rdp_additive_loop
      intro left l hE
      obtain ⟨c, t, rfl, ht⟩ := hE
      simp only [rdp_additive_loop,
        rdp_consume_blanks_append c [] (show t.type ≠ TOK_SPACE by simp [ht])]
      cases hdw : dropSpaces c with
      | nil =>
        simp only [List.nil_append, rdp_peek]
        rw [if_neg (show ¬(t.type = TOK_PLUS ∨ t.type = TOK_MINUS) by simp [ht])]
        exact Or.inl ⟨left, _, rfl, ⟨[], t, rfl, ht⟩⟩
      | cons x c' =>
        simp only [List.cons_append, rdp_peek, List.tail_cons]
        by_cases hx : x.type = TOK_PLUS ∨ x.type = TOK_MINUS
        · rw [if_pos hx]
          rcases ihM (c' ++ [t]) ⟨c', t, rfl, ht⟩ with ⟨n1, r1, hm, hE1⟩ | hm | hm <;>
            simp only [hm]
          · exact ihAL _ r1 hE1
          · exact Or.inr (Or.inl rfl)
          · exact Or.inr (Or.inr rfl)
        · rw [if_neg hx]
          exact Or.inl ⟨left, _, rfl, ⟨x :: c', t, rfl, ht⟩⟩
    · -- rdp_additive_exp
      intro l hE
      simp only [rdp_additive_exp]
      rcases ihM l hE with ⟨n1, r1, hm, hE1⟩ | hm | hm <;> simp only [hm]
      · exact ihAL _ _ hE1
      · exact Or.inr (Or.inl rfl)
      · exact Or.inr (Or.inr rfl)
    · -- rdp_and_loop
      intro left l hE
      obtain ⟨c, t, rfl, ht⟩ := hE
      simp only [rdp_and_loop,
        rdp_consume_blanks_append c [] (show t.type ≠ TOK_SPACE by simp [ht])]
      cases hdw : dropSpaces c with
      | nil =>
        simp only [List.nil_append, rdp_peek]
        rw [if_neg (show ¬t.type = TOK_BWAND by simp [ht])]
        exact Or.inl ⟨left, _, rfl, ⟨[], t, rfl, ht⟩⟩
      | cons x c' =>
        simp only [List.cons_append, rdp_peek, List.tail_cons]
        by_cases hx : x.type = TOK_BWAND
        · rw [if_pos hx]
          rcases ihA (c' ++ [t]) ⟨c', t, rfl, ht⟩ with ⟨n1, r1, hm, hE1⟩ | hm | hm <;>
            simp only [hm]
          · exact ihNL _ r1 hE1
          · exact Or.inr (Or.inl rfl)
          · exact Or.inr (Or.inr rfl)
        · rw [if_neg hx]
          exact Or.inl ⟨left, _, rfl, ⟨x :: c', t, rfl, ht⟩⟩
    · -- rdp_and_exp
      intro l hE
      simp only [rdp_and_exp]
      rcases ihA l hE with ⟨n1, r1, hm, hE1⟩ | hm | hm <;> simp only [hm]
      · exact ihNL _ _ hE1
      · exact Or.inr (Or.inl rfl)
      · exact Or.inr (Or.inr rfl)
    · -- rdp_xor_loop
      intro left l hE
      obtain ⟨c, t, rfl, ht⟩ := hE
      simp only [rdp_xor_loop,
        rdp_consume_blanks_append c [] (show t.type ≠ TOK_SPACE by simp [ht])]
      cases hdw : dropSpaces c with
      | nil =>
        simp only [List.nil_append, rdp_peek]
        rw [if_neg (show ¬t.type = TOK_BWXOR by simp [ht])]
        exact Or.inl ⟨left, _, rfl, ⟨[], t, rfl, ht⟩⟩
      | cons x c' =>
        simp only [List.cons_append, rdp_peek, List.tail_cons]
        by_cases hx : x.type = TOK_BWXOR
        · rw [if_pos hx]
          rcases ihN (c' ++ [t]) ⟨c', t, rfl, ht⟩ with ⟨n1, r1, hm, hE1⟩ | hm | hm <;>
            simp only [hm]
          · exact ihXL _ r1 hE1
          · exact Or.inr (Or.inl rfl)
          · exact Or.inr (Or.inr rfl)
        · rw [if_neg hx]
          exact Or.inl ⟨left, _, rfl, ⟨x :: c', t, rfl, ht⟩⟩
    · -- rdp_xor_exp
      intro l hE
      simp only [rdp_xor_exp]
      rcases ihN l hE with ⟨n1, r1, hm, hE1⟩ | hm | hm <;> simp only [hm]
      · exact ihXL _ _ hE1
      · exact Or.inr (Or.inl rfl)
      · exact Or.inr (Or.inr rfl)
    · -- rdp_ior_loop
      intro left l hE
      obtain ⟨c, t, rfl, ht⟩ := hE
      simp only [rdp_ior_loop,
        rdp_consume_blanks_append c [] (show t.type ≠ TOK_SPACE by simp [ht])]
      cases hdw : dropSpaces c with
      | nil =>
        simp only [List.nil_append, rdp_peek]
        rw [if_neg (show ¬t.type = TOK_BWOR by simp [ht])]
        exact Or.inl ⟨left, _, rfl, ⟨[], t, rfl, ht⟩⟩
      | cons x c' =>
        simp only [List.cons_append, rdp_peek, List.tail_cons]
        by_cases hx : x.type = TOK_BWOR
        · rw [if_pos hx]
          rcases ihX (c' ++ [t]) ⟨c', t, rfl, ht⟩ with ⟨n1, r1, hm, hE1⟩ | hm | hm <;>
            simp only [hm]
          · exact ihIL _ r1 hE1
          · exact Or.inr (Or.inl rfl)
          · exact Or.inr (Or.inr rfl)
        · rw [if_neg hx]
          exact Or.inl ⟨left, _, rfl, ⟨x :: c', t, rfl, ht⟩⟩
    · -- rdp_ior_exp
      intro l hE
      simp only [rdp_ior_exp]
      rcases ihX l hE with ⟨n1, r1, hm, hE1⟩ | hm | hm <;> simp only [hm]
      · exact ihIL _ _ hE1
      · exact Or.inr (Or.inl rfl)
      · exact Or.inr (Or.inr rfl)
    · -- rdp_expression
      intro l hE
      simp only [rdp_expression]
      exact ihI l hE

/-! ### Lexer facts: remaining input, consumption, token shapes -/

theorem lex_chnumber_go_suffix : ∀ r acc, (lex_chnumber_go r acc).2 <:+ r := by
  intro r
  induction r with
  | nil => intro acc; simp [lex_chnumber_go]
  | cons c rr ih =>
    intro acc
    by_cases hc : c.isDigit
    · simp only [lex_chnumber_go, if_pos hc]
      exact (ih _).trans (List.suffix_cons c rr)
    · simp only [lex_chnumber_go, if_neg hc]
      exact List.suffix_rfl

theorem lex_chident_go_suffix : ∀ r acc, (lex_chident_go r acc).2 <:+ r := by
  intro r
  induction r with
  | nil => intro acc; simp [lex_chident_go]
  | cons c rr ih =>
    intro acc
    by_cases hc : c.isAlpha
    · simp only [lex_chident_go, if_pos hc]
      exact (ih _).trans (List.suffix_cons c rr)
    · simp only [lex_chident_go, if_neg hc]
      exact List.suffix_rfl

theorem lex_chnot_suffix : ∀ r, (lex_chnot r).2 <:+ r := by
  intro r
  cases r with
  | nil => simp [lex_chnot]
  | cons c rr =>
    simp only [lex_chnot]
    split_ifs <;> exact List.suffix_cons c rr

theorem lex_cheq_suffix : ∀ r, (lex_cheq r).2 <:+ r := by
  intro r
  cases r with
  | nil => simp [lex_cheq]
  | cons c rr =>
    simp only [lex_cheq]
    split_ifs <;> first | exact List.suffix_cons c rr | exact List.suffix_rfl

theorem lex_chor_suffix : ∀ r, (lex_chor r).2 <:+ r := by
  intro r
  cases r with
  | nil => simp [lex_chor]
  | cons c rr =>
    simp only [lex_chor]
    split_ifs <;> first | exact List.suffix_cons c rr | exact List.suffix_rfl

theorem lex_chand_suffix : ∀ r, (lex_chand r).2 <:+ r := by
  intro r
  cases r with
  | nil => simp [lex_chand]
  | cons c rr =>
    simp only [lex_chand]
    split_ifs <;> first | exact List.suffix_cons c rr | exact List.suffix_rfl

theorem lex_chlbr_suffix : ∀ r, (lex_chlbr r).2 <:+ r := by
  intro r
  cases r with
  | nil => simp [lex_chlbr]
  | cons c rr =>
    simp only [lex_chlbr]
    split_ifs <;> first | exact List.suffix_cons c rr | exact List.suffix_rfl

theorem lex_chrbr_suffix : ∀ r, (lex_chrbr r).2 <:+ r := by
  intro r
  cases r with
  | nil => simp [lex_chrbr]
  | cons c rr =>
    simp only [lex_chrbr]
    split_ifs <;> first | exact List.suffix_cons c rr | exact List.suffix_rfl

theorem lex_dispatch_suffix : ∀ c r, (lex_dispatch c r).2 <:+ r := by
  intro c r
  unfold lex_dispatch
  split
  · exact List.suffix_rfl
  · exact List.suffix_rfl
  · exact List.suffix_rfl
  · exact List.suffix_rfl
  · exact List.suffix_rfl
  · exact List.suffix_rfl
  · exact List.suffix_rfl
  · exact lex_chnot_suffix r
  · exact lex_cheq_suffix r
  · exact lex_chand_suffix r
  · exact lex_chor_suffix r
  · exact lex_chlbr_suffix r
  · exact lex_chrbr_suffix r
  · exact List.suffix_rfl
  · exact List.suffix_rfl
  · exact List.suffix_rfl
  · exact List.suffix_rfl
  · exact List.suffix_rfl
  · split_ifs <;> first
      | exact lex_chnumber_go_suffix r [c]
      | exact lex_chident_go_suffix r [c]
      | exact List.suffix_rfl

theorem lex_token_tail_suffix : ∀ c r, (lex_token (c :: r)).2 <:+ r := by
  intro c r
  simp only [lex_token]
  by_cases hs : c_isspace c
  · rw [if_pos hs]
  · rw [if_neg hs]
    exact lex_dispatch_suffix c r

theorem lex_token_consume : ∀ l t r2, lex_token l = (some t, r2) →
    t.type ≠ TOK_EOF → r2.length < l.length := by
  intro l t r2 h hne
  cases l with
  | nil =>
    simp only [lex_token, Prod.mk.injEq, Option.some.injEq] at h
    exact absurd (by rw [← h.1]; rfl) hne
  | cons c r =>
    have hs : r2 <:+ r := by
      have hts := lex_token_tail_suffix c r
      rw [h] at hts
      exact hts
    simpa using Nat.lt_succ_of_le hs.length_le

theorem lex_chnot_ne_eof : ∀ r t r2, lex_chnot r = (some t, r2) → t.type ≠ TOK_EOF := by
  intro r t r2 h
  cases r with
  | nil => simp [lex_chnot] at h
  | cons d rr =>
    simp only [lex_chnot] at h
    split_ifs at h
    · simp only [Prod.mk.injEq, Option.some.injEq] at h
      rw [← h.1]
      decide
    · simp at h

theorem lex_cheq_ne_eof : ∀ r t r2, lex_cheq r = (some t, r2) → t.type ≠ TOK_EOF := by
  intro r t r2 h
  cases r with
  | nil =>
    simp only [lex_cheq, Prod.mk.injEq, Option.some.injEq] at h
    rw [← h.1]; decide
  | cons d rr =>
    simp only [lex_cheq] at h
    split_ifs at h <;>
      (simp only [Prod.mk.injEq, Option.some.injEq] at h; rw [← h.1]; decide)

theorem lex_chand_ne_eof : ∀ r t r2, lex_chand r = (some t, r2) → t.type ≠ TOK_EOF := by
  intro r t r2 h
  cases r with
  | nil =>
    simp only [lex_chand, Prod.mk.injEq, Option.some.injEq] at h
    rw [← h.1]; decide
  | cons d rr =>
    simp only [lex_chand] at h
    split_ifs at h <;>
      (simp only [Prod.mk.injEq, Option.some.injEq] at h; rw [← h.1]; decide)

theorem lex_chor_ne_eof : ∀ r t r2, lex_chor r = (some t, r2) → t.type ≠ TOK_EOF := by
  intro r t r2 h
  cases r with
  | nil =>
    simp only [lex_chor, Prod.mk.injEq, Option.some.injEq] at h
    rw [← h.1]; decide
  | cons d rr =>
    simp only [lex_chor] at h
    split_ifs at h <;>
      (simp only [Prod.mk.injEq, Option.some.injEq] at h; rw [← h.1]; decide)

theorem lex_chlbr_ne_eof : ∀ r t r2, lex_chlbr r = (some t, r2) → t.type ≠ TOK_EOF := by
  intro r t r2 h
  cases r with
  | nil =>
    simp only [lex_chlbr, Prod.mk.injEq, Option.some.injEq] at h
    rw [← h.1]; decide
  | cons d rr =>
    simp only [lex_chlbr] at h
    split_ifs at h <;>
      (simp only [Prod.mk.injEq, Option.some.injEq] at h; rw [← h.1]; decide)

theorem lex_chrbr_ne_eof : ∀ r t r2, lex_chrbr r = (some t, r2) → t.type ≠ TOK_EOF := by
  intro r t r2 h
  cases r with
  | nil =>
    simp only [lex_chrbr, Prod.mk.injEq, Option.some.injEq] at h
    rw [← h.1]; decide
  | cons d rr =>
    simp only [lex_chrbr] at h
    split_ifs at h <;>
      (simp only [Prod.mk.injEq, Option.some.injEq] at h; rw [← h.1]; decide)

theorem lex_chnot_append : ∀ r t r2, lex_chnot r = (some t, r2) →
    lex_chnot (r ++ [')']) = (some t, r2 ++ [')']) := by
  intro r t r2 h
  cases r with
  | nil => simp [lex_chnot] at h
  | cons d rr =>
    simp only [lex_chnot, List.cons_append] at h ⊢
    split_ifs at h ⊢ with hd
    · simp only [Prod.mk.injEq, Option.some.injEq] at h
      simp [← h.1, ← h.2]
    · simp at h

theorem lex_cheq_append : ∀ r t r2, lex_cheq r = (some t, r2) →
    lex_cheq (r ++ [')']) = (some t, r2 ++ [')']) := by
  intro r t r2 h
  cases r with
  | nil =>
    simp only [lex_cheq, Prod.mk.injEq, Option.some.injEq] at h
    simp only [List.nil_append]
    rw [← h.1, ← h.2]
    rfl
  | cons d rr =>
    simp only [lex_cheq, List.cons_append] at h ⊢
    split_ifs at h ⊢ with hd <;>
      (simp only [Prod.mk.injEq, Option.some.injEq] at h; simp [← h.1, ← h.2])

theorem lex_chand_append : ∀ r t r2, lex_chand r = (some t, r2) →
    lex_chand (r ++ [')']) = (some t, r2 ++ [')']) := by
  intro r t r2 h
  cases r with
  | nil =>
    simp only [lex_chand, Prod.mk.injEq, Option.some.injEq] at h
    simp only [List.nil_append]
    rw [← h.1, ← h.2]
    rfl
  | cons d rr =>
    simp only [lex_chand, List.cons_append] at h ⊢
    split_ifs at h ⊢ with hd <;>
      (simp only [Prod.mk.injEq, Option.some.injEq] at h; simp [← h.1, ← h.2])

theorem lex_chor_append : ∀ r t r2, lex_chor r = (some t, r2) →
    lex_chor (r ++ [')']) = (some t, r2 ++ [')']) := by
  intro r t r2 h
  cases r with
  | nil =>
    simp only [lex_chor, Prod.mk.injEq, Option.some.injEq] at h
    simp only [List.nil_append]
    rw [← h.1, ← h.2]
    rfl
  | cons d rr =>
    simp only [lex_chor, List.cons_append] at h ⊢
    split_ifs at h ⊢ with hd <;>
      (simp only [Prod.mk.injEq, Option.some.injEq] at h; simp [← h.1, ← h.2])

theorem lex_chlbr_append : ∀ r t r2, lex_chlbr r = (some t, r2) →
    lex_chlbr (r ++ [')']) = (some t, r2 ++ [')']) := by
  intro r t r2 h
  cases r with
  | nil =>
    simp only [lex_chlbr, Prod.mk.injEq, Option.some.injEq] at h
    simp only [List.nil_append]
    rw [← h.1, ← h.2]
    rfl
  | cons d rr =>
    simp only [lex_chlbr, List.cons_append] at h ⊢
    split_ifs at h ⊢ with hd hd2 <;>
      (simp only [Prod.mk.injEq, Option.some.injEq] at h; simp [← h.1, ← h.2])

theorem lex_chrbr_append : ∀ r t r2, lex_chrbr r = (some t, r2) →
    lex_chrbr (r ++ [')']) = (some t, r2 ++ [')']) := by
  intro r t r2 h
  cases r with
  | nil =>
    simp only [lex_chrbr, Prod.mk.injEq, Option.some.injEq] at h
    simp only [List.nil_append]
    rw [← h.1, ← h.2]
    rfl
  | cons d rr =>
    simp only [lex_chrbr, List.cons_append] at h ⊢
    split_ifs at h ⊢ with hd hd2 <;>
      (simp only [Prod.mk.injEq, Option.some.injEq] at h; simp [← h.1, ← h.2])

theorem lex_chnumber_go_append : ∀ r acc, lex_chnumber_go (r ++ [')']) acc =
    ((lex_chnumber_go r acc).1, (lex_chnumber_go r acc).2 ++ [')']) := by
  intro r
  induction r with
  | nil =>
    intro acc
    simp [lex_chnumber_go, show (')').isDigit = false by decide]
  | cons d rr ih =>
    intro acc
    by_cases hd : d.isDigit
    · simp only [List.cons_append, lex_chnumber_go, if_pos hd]
      exact ih (acc ++ [d])
    · simp only [List.cons_append, lex_chnumber_go, if_neg hd]
      rfl

theorem lex_chident_go_append : ∀ r acc, lex_chident_go (r ++ [')']) acc =
    ((lex_chident_go r acc).1, (lex_chident_go r acc).2 ++ [')']) := by
  intro r
  induction r with
  | nil =>
    intro acc
    simp [lex_chident_go, show (')').isAlpha = false by decide]
  | cons d rr ih =>
    intro acc
    by_cases hd : d.isAlpha
    · simp only [List.cons_append, lex_chident_go, if_pos hd]
      exact ih (acc ++ [d])
    · simp only [List.cons_append, lex_chident_go, if_neg hd]
      rfl

theorem lex_dispatch_append : ∀ c r t r2, lex_dispatch c r = (some t, r2) →
    t.type ≠ TOK_EOF → lex_dispatch c (r ++ [')']) = (some t, r2 ++ [')']) := by
  intro c r t r2 h hne
  unfold lex_dispatch at h ⊢
  split at h
  · simp only [Prod.mk.injEq, Option.some.injEq] at h
    rw [← h.1, ← h.2]
  · simp only [Prod.mk.injEq, Option.some.injEq] at h
    rw [← h.1, ← h.2]
  · simp only [Prod.mk.injEq, Option.some.injEq] at h
    rw [← h.1, ← h.2]
  · simp only [Prod.mk.injEq, Option.some.injEq] at h
    rw [← h.1, ← h.2]
  · simp only [Prod.mk.injEq, Option.some.injEq] at h
    rw [← h.1, ← h.2]
  · simp only [Prod.mk.injEq, Option.some.injEq] at h
    rw [← h.1, ← h.2]
  · simp only [Prod.mk.injEq, Option.some.injEq] at h
    rw [← h.1, ← h.2]
  · exact lex_chnot_append r t r2 h
  · exact lex_cheq_append r t r2 h
  · exact lex_chand_append r t r2 h
  · exact lex_chor_append r t r2 h
  · exact lex_chlbr_append r t r2 h
  · exact lex_chrbr_append r t r2 h
  · simp only [Prod.mk.injEq, Option.some.injEq] at h
    rw [← h.1, ← h.2]
  · simp only [Prod.mk.injEq, Option.some.injEq] at h
    rw [← h.1, ← h.2]
  · simp only [Prod.mk.injEq, Option.some.injEq] at h
    rw [← h.1, ← h.2]
  · simp only [Prod.mk.injEq, Option.some.injEq] at h
    rw [← h.1, ← h.2]
  · simp only [Prod.mk.injEq, Option.some.injEq] at h
    rw [← h.1, ← h.2]
  · split_ifs at h with hd ha
    · simp only [Prod.mk.injEq, Option.some.injEq] at h
      rw [← h.1, ← h.2]
      split <;> first
        | (rw [lex_chnumber_go_append])
        | simp_all
    · simp only [Prod.mk.injEq, Option.some.injEq] at h
      rw [← h.1, ← h.2]
      split <;> first
        | (rw [lex_chident_go_append])
        | simp_all
    · simp only [Prod.mk.injEq, Option.some.injEq] at h
      exact absurd (by rw [← h.1]; rfl) hne

theorem lex_cheq_ne_none : ∀ r r2, lex_cheq r ≠ (none, r2) := by
  intro r r2 h
  cases r with
  | nil => simp [lex_cheq] at h
  | cons d rr =>
    simp only [lex_cheq] at h
    split_ifs at h <;> simp at h

theorem lex_chand_ne_none : ∀ r r2, lex_chand r ≠ (none, r2) := by
  intro r r2 h
  cases r with
  | nil => simp [lex_chand] at h
  | cons d rr =>
    simp only [lex_chand] at h
    split_ifs at h <;> simp at h

theorem lex_chor_ne_none : ∀ r r2, lex_chor r ≠ (none, r2) := by
  intro r r2 h
  cases r with
  | nil => simp [lex_chor] at h
  | cons d rr =>
    simp only [lex_chor] at h
    split_ifs at h <;> simp at h

theorem lex_chlbr_ne_none : ∀ r r2, lex_chlbr r ≠ (none, r2) := by
  intro r r2 h
  cases r with
  | nil => simp [lex_chlbr] at h
  | cons d rr =>
    simp only [lex_chlbr] at h
    split_ifs at h <;> simp at h

theorem lex_chrbr_ne_none : ∀ r r2, lex_chrbr r ≠ (none, r2) := by
  intro r r2 h
  cases r with
  | nil => simp [lex_chrbr] at h
  | cons d rr =>
    simp only [lex_chrbr] at h
    split_ifs at h <;> simp at h

theorem lex_dispatch_none : ∀ c r r2, lex_dispatch c r = (none, r2) →
    c = '!' ∧ lex_chnot r = (none, r2) := by
  intro c r r2 h
  unfold lex_dispatch at h
  split at h
  · simp at h
  · simp at h
  · simp at h
  · simp at h
  · simp at h
  · simp at h
  · simp at h
  · exact ⟨rfl, h⟩
  · exact absurd h (lex_cheq_ne_none r r2)
  · exact absurd h (lex_chand_ne_none r r2)
  · exact absurd h (lex_chor_ne_none r r2)
  · exact absurd h (lex_chlbr_ne_none r r2)
  · exact absurd h (lex_chrbr_ne_none r r2)
  · simp at h
  · simp at h
  · simp at h
  · simp at h
  · simp at h
  · split_ifs at h <;> simp at h

theorem lex_dispatch_eof : ∀ c r t r2, lex_dispatch c r = (some t, r2) →
    t.type = TOK_EOF → t = eofTok ∧ r2 = r ∧ recognizedChar c = c_isspace c := by
  intro c r t r2 h hteof
  unfold lex_dispatch at h
  split at h
  · simp only [Prod.mk.injEq, Option.some.injEq] at h
    rw [← h.1] at hteof
    exact absurd hteof (by decide)
  · simp only [Prod.mk.injEq, Option.some.injEq] at h
    rw [← h.1] at hteof
    exact absurd hteof (by decide)
  · simp only [Prod.mk.injEq, Option.some.injEq] at h
    rw [← h.1] at hteof
    exact absurd hteof (by decide)
  · simp only [Prod.mk.injEq, Option.some.injEq] at h
    rw [← h.1] at hteof
    exact absurd hteof (by decide)
  · simp only [Prod.mk.injEq, Option.some.injEq] at h
    rw [← h.1] at hteof
    exact absurd hteof (by decide)
  · simp only [Prod.mk.injEq, Option.some.injEq] at h
    rw [← h.1] at hteof
    exact absurd hteof (by decide)
  · simp only [Prod.mk.injEq, Option.some.injEq] at h
    rw [← h.1] at hteof
    exact absurd hteof (by decide)
  · exact absurd hteof (lex_chnot_ne_eof r t r2 h)
  · exact absurd hteof (lex_cheq_ne_eof r t r2 h)
  · exact absurd hteof (lex_chand_ne_eof r t r2 h)
  · exact absurd hteof (lex_chor_ne_eof r t r2 h)
  · exact absurd hteof (lex_chlbr_ne_eof r t r2 h)
  · exact absurd hteof (lex_chrbr_ne_eof r t r2 h)
  · simp only [Prod.mk.injEq, Option.some.injEq] at h
    rw [← h.1] at hteof
    exact absurd hteof (by decide)
  · simp only [Prod.mk.injEq, Option.some.injEq] at h
    rw [← h.1] at hteof
    exact absurd hteof (by decide)
  · simp only [Prod.mk.injEq, Option.some.injEq] at h
    rw [← h.1] at hteof
    exact absurd hteof (by decide)
  · simp only [Prod.mk.injEq, Option.some.injEq] at h
    rw [← h.1] at hteof
    exact absurd hteof (by decide)
  · simp only [Prod.mk.injEq, Option.some.injEq] at h
    rw [← h.1] at hteof
    exact absurd hteof (by decide)
  · split_ifs at h with hd ha
    · simp only [Prod.mk.injEq, Option.some.injEq] at h
      rw [← h.1] at hteof
      simp [lex_mknumber] at hteof
    · simp only [Prod.mk.injEq, Option.some.injEq] at h
      rw [← h.1] at hteof
      simp [lex_mkident] at hteof
    · simp only [Prod.mk.injEq, Option.some.injEq] at h
      rename_i hp hmi hdi hmu hmo hq hco hb hq2 han hor hlt hgt hxo htl hlp hrp hsc
      rw [not_or] at ha
      have hd2 : c.isDigit = false := by simpa using hd
      have ha2 : c.isAlpha = false := by simpa using ha.1
      have eu : (c == '_') = false := beq_eq_false_iff_ne.mpr ha.2
      have e0 : (c == '+') = false := beq_eq_false_iff_ne.mpr hp
      have e1 : (c == '-') = false := beq_eq_false_iff_ne.mpr hmi
      have e2 : (c == '/') = false := beq_eq_false_iff_ne.mpr hdi
      have e3 : (c == '*') = false := beq_eq_false_iff_ne.mpr hmu
      have e4 : (c == '%') = false := beq_eq_false_iff_ne.mpr hmo
      have e5 : (c == '?') = false := beq_eq_false_iff_ne.mpr hq
      have e6 : (c == ':') = false := beq_eq_false_iff_ne.mpr hco
      have e7 : (c == '!') = false := beq_eq_false_iff_ne.mpr hb
      have e8 : (c == '=') = false := beq_eq_false_iff_ne.mpr hq2
      have e9 : (c == '&') = false := beq_eq_false_iff_ne.mpr han
      have e10 : (c == '|') = false := beq_eq_false_iff_ne.mpr hor
      have e11 : (c == '<') = false := beq_eq_false_iff_ne.mpr hlt
      have e12 : (c == '>') = false := beq_eq_false_iff_ne.mpr hgt
      have e13 : (c == '^') = false := beq_eq_false_iff_ne.mpr hxo
      have e14 : (c == '~') = false := beq_eq_false_iff_ne.mpr htl
      have e15 : (c == '(') = false := beq_eq_false_iff_ne.mpr hlp
      have e16 : (c == ')') = false := beq_eq_false_iff_ne.mpr hrp
      have e17 : (c == ';') = false := beq_eq_false_iff_ne.mpr hsc
      refine ⟨h.1.symm, h.2.symm, ?_⟩
      simp only [recognizedChar, hd2, ha2, eu, e0, e1, e2, e3, e4, e5, e6, e7, e8, e9, e10, e11, e12, e13, e14, e15, e16, e17]
      simp

theorem lex_token_eof : ∀ l t r2, lex_token l = (some t, r2) → t.type = TOK_EOF →
    t = eofTok ∧ (l = [] ∨ ∃ c rr, l = c :: rr ∧ recognizedChar c = false ∧ r2 = rr) := by
  intro l t r2 h hteof
  cases l with
  | nil =>
    simp only [lex_token, Prod.mk.injEq, Option.some.injEq] at h
    exact ⟨h.1.symm, Or.inl rfl⟩
  | cons c r =>
    simp only [lex_token] at h
    split_ifs at h with hs
    · simp only [Prod.mk.injEq, Option.some.injEq] at h
      rw [← h.1] at hteof
      exact absurd hteof (by decide)
    · obtain ⟨ht, hr2, hrc⟩ := lex_dispatch_eof c r t r2 h hteof
      refine ⟨ht, Or.inr ⟨c, r, rfl, ?_, hr2⟩⟩
      rw [hrc]
      simpa using hs

theorem lex_token_append : ∀ l t r2, lex_token l = (some t, r2) → t.type ≠ TOK_EOF →
    lex_token (l ++ [')']) = (some t, r2 ++ [')']) := by
  intro l t r2 h hne
  cases l with
  | nil =>
    simp only [lex_token, Prod.mk.injEq, Option.some.injEq] at h
    exact absurd (by rw [← h.1]; rfl) hne
  | cons c r =>
    simp only [List.cons_append, lex_token] at h ⊢
    split_ifs at h ⊢ with hs
    · simp only [Prod.mk.injEq, Option.some.injEq] at h
      simp [← h.1, ← h.2]
    · exact lex_dispatch_append c r t r2 h hne

theorem lex_token_none_bangOk : ∀ l r2, lex_token l = (none, r2) → bangOk l = false := by
  intro l r2 h
  cases l with
  | nil => simp [lex_token] at h
  | cons c r =>
    simp only [lex_token] at h
    split_ifs at h with hs
    · simp at h
    · obtain ⟨rfl, hn⟩ := lex_dispatch_none c r r2 h
      cases r with
      | nil => rfl
      | cons d rr =>
        simp only [lex_chnot] at hn
        split_ifs at hn with hd
        · simp at hn
        · simp [bangOk, hd]

theorem lex_run_step_eof : ∀ fuel l t r, lex_token l = (some t, r) →
    t.type = TOK_EOF → lex_run (fuel + 1) l = some ([t], r) := by
  intro fuel l t r hstep hteof
  simp only [lex_run, hstep]
  rw [if_pos hteof]

theorem lex_run_step_cons : ∀ fuel l t r ts rest, lex_token l = (some t, r) →
    t.type ≠ TOK_EOF → lex_run fuel r = some (ts, rest) →
    lex_run (fuel + 1) l = some (t :: ts, rest) := by
  intro fuel l t r ts rest hstep hne hrun
  simp only [lex_run, hstep]
  rw [if_neg hne, hrun]

theorem lex_run_shape : ∀ fuel l ts rest, lex_run fuel l = some (ts, rest) →
    ∃ core, ts = core ++ [eofTok] ∧ ∀ x ∈ core, x.type ≠ TOK_EOF := by
  intro fuel
  induction fuel with
  | zero => intro l ts rest h; simp [lex_run] at h
  | succ f ih =>
    intro l ts rest h
    simp only [lex_run] at h
    split at h
    · cases h
    next t r heq =>
      split at h
      next hteof =>
        simp only [Option.some.injEq, Prod.mk.injEq] at h
        obtain ⟨hts, hrest⟩ := h
        obtain ⟨hval, _⟩ := lex_token_eof l t r heq hteof
        exact ⟨[], by simp [← hts, hval], by simp⟩
      next hteof =>
        split at h
        · cases h
        next ts' rest' heq2 =>
          simp only [Option.some.injEq, Prod.mk.injEq] at h
          obtain ⟨hts, hrest⟩ := h
          obtain ⟨core', hcore, hne'⟩ := ih r ts' rest' heq2
          refine ⟨t :: core', by simp [← hts, hcore], ?_⟩
          intro x hx
          rcases List.mem_cons.mp hx with rfl | hx
          · exact hteof
          · exact hne' x hx

theorem lex_run_prepend : ∀ fuel l ts rest, lex_run fuel l = some (ts, rest) →
    lex_run (fuel + 1) ('(' :: l) = some (lex_mkkw TOK_LPAREN :: ts, rest) := by
  intro fuel l ts rest h
  exact lex_run_step_cons fuel ('(' :: l) (lex_mkkw TOK_LPAREN) l ts rest rfl
    (by decide) h

theorem lex_run_append : ∀ fuel l ts, (∀ c ∈ l, recognizedChar c = true) →
    lex_run fuel l = some (ts, []) →
    lex_run (fuel + 1) (l ++ [')']) =
      some (ts.dropLast ++ [lex_mkkw TOK_RPAREN, eofTok], []) := by
  intro fuel
  induction fuel with
  | zero => intro l ts hrec h; simp [lex_run] at h
  | succ f ih =>
    intro l ts hrec h
    simp only [lex_run] at h
    split at h
    · cases h
    next t r heq =>
      split at h
      next hteof =>
        simp only [Option.some.injEq, Prod.mk.injEq] at h
        obtain ⟨hts, hrest⟩ := h
        obtain ⟨hval, hcase⟩ := lex_token_eof l t r heq hteof
        rcases hcase with rfl | ⟨c, rr, rfl, hrecf, hr2⟩
        · -- l = [], stream yields only the end-of-input token
          subst hval
          rw [← hts]
          have s1 : lex_run (f + 1) ([] : List Char) = some ([lex_mkkw TOK_EOF], []) :=
            lex_run_step_eof f [] (lex_mkkw TOK_EOF) [] rfl rfl
          have s2 : lex_run (f + 1 + 1) [')'] =
              some ([lex_mkkw TOK_RPAREN, lex_mkkw TOK_EOF], []) :=
            lex_run_step_cons (f + 1) [')'] (lex_mkkw TOK_RPAREN) [] _ _ rfl
              (by decide) s1
          rw [List.nil_append, s2]
          simp [eofTok]
        · -- an unrecognized character produced the end-of-input token:
          -- impossible, every character of l is recognized
          exact absurd (hrec c (by simp)) (by simp [hrecf])
      next hteof =>
        split at h
        · cases h
        next ts' rest' heq2 =>
          simp only [Option.some.injEq, Prod.mk.injEq] at h
          obtain ⟨hts, hrest⟩ := h
          subst hrest
          have hrec' : ∀ c ∈ r, recognizedChar c = true := by
            intro d hd
            cases l with
            | nil =>
              rw [show lex_token ([] : List Char) = (some (lex_mkkw TOK_EOF), []) from rfl] at heq
              simp only [Prod.mk.injEq, Option.some.injEq] at heq
              exact absurd (by rw [← heq.1]; rfl) hteof
            | cons c0 rr0 =>
              have hs := lex_token_tail_suffix c0 rr0
              rw [heq] at hs
              exact hrec d (List.mem_cons_of_mem c0 (hs.subset hd))
          have ihr := ih r ts' hrec' heq2
          have hstep := lex_token_append l t r heq hteof
          obtain ⟨core', hcore, hne'⟩ := lex_run_shape f r ts' [] heq2
          have hfin := lex_run_step_cons (f + 1) (l ++ [')']) t (r ++ [')']) _ _
            hstep hteof ihr
          rw [hfin, ← hts, hcore]
          have h1 : (t :: (core' ++ [eofTok])).dropLast = t :: core' := by
            rw [show t :: (core' ++ [eofTok]) = (t :: core') ++ [eofTok] by simp]
            exact List.dropLast_concat
          have h2 : (core' ++ [eofTok]).dropLast = core' := List.dropLast_concat
          rw [h1, h2]
          simp

theorem bangOk_append : ∀ p l, bangOk (p ++ l) = true → bangOk l = true := by
  intro p
  induction p with
  | nil => intro l h; simpa using h
  | cons x pp ih =>
    intro l h
    simp only [List.cons_append, bangOk, Bool.and_eq_true] at h
    exact ih l h.2

theorem lex_run_total : ∀ fuel l, bangOk l = true → l.length < fuel →
    ∃ ts rest, lex_run fuel l = some (ts, rest) := by
  intro fuel
  induction fuel with
  | zero => intro l hb hlen; omega
  | succ f ih =>
    intro l hb hlen
    rcases hlt : lex_token l with ⟨opt, r⟩
    cases opt with
    | none =>
      have := lex_token_none_bangOk l r hlt
      rw [hb] at this
      cases this
    | some t =>
      by_cases hteof : t.type = TOK_EOF
      · exact ⟨[t], r, lex_run_step_eof f l t r hlt hteof⟩
      · have hcons : r.length < l.length := lex_token_consume l t r hlt hteof
        have hbr : bangOk r = true := by
          have hs : r <:+ l := by
            cases l with
            | nil =>
              rw [show lex_token [] = (some (lex_mkkw TOK_EOF), []) from rfl] at hlt
              simp only [Prod.mk.injEq, Option.some.injEq] at hlt
              exact absurd (by rw [← hlt.1]; rfl) hteof
            | cons c0 rr0 =>
              have hts := lex_token_tail_suffix c0 rr0
              rw [hlt] at hts
              exact hts.trans (List.suffix_cons c0 rr0)
          obtain ⟨p, rfl⟩ := hs
          exact bangOk_append p r hb
        obtain ⟨ts, rest, hrun⟩ := ih r hbr (by omega)
        exact ⟨t :: ts, rest, lex_run_step_cons f l t r ts rest hlt hteof hrun⟩

/-! ### Small computation helpers for the claim theorems -/

theorem rdp_generate_ast_eq : ∀ fuel l, rdp_generate_ast fuel l = rdp_expression fuel l :=
  fun _ _ => rfl

theorem rdp_mult_loop_eof : ∀ f n, rdp_mult_loop (f + 1) n [eofTok] = .ok n [eofTok] := by
  intro f n
  simp only [rdp_mult_loop,
    rdp_consume_blanks_nospace ([] : List token_t) (show eofTok.type ≠ TOK_SPACE by decide),
    rdp_peek]
  rw [if_neg (by decide)]

theorem rdp_additive_loop_eof : ∀ f n, rdp_additive_loop (f + 1) n [eofTok] = .ok n [eofTok] := by
  intro f n
  simp only [rdp_additive_loop,
    rdp_consume_blanks_nospace ([] : List token_t) (show eofTok.type ≠ TOK_SPACE by decide),
    rdp_peek]
  rw [if_neg (by decide)]

theorem rdp_and_loop_eof : ∀ f n, rdp_and_loop (f + 1) n [eofTok] = .ok n [eofTok] := by
  intro f n
  simp only [rdp_and_loop,
    rdp_consume_blanks_nospace ([] : List token_t) (show eofTok.type ≠ TOK_SPACE by decide),
    rdp_peek]
  rw [if_neg (by decide)]

theorem rdp_xor_loop_eof : ∀ f n, rdp_xor_loop (f + 1) n [eofTok] = .ok n [eofTok] := by
  intro f n
  simp only [rdp_xor_loop,
    rdp_consume_blanks_nospace ([] : List token_t) (show eofTok.type ≠ TOK_SPACE by decide),
    rdp_peek]
  rw [if_neg (by decide)]

theorem rdp_ior_loop_eof : ∀ f n, rdp_ior_loop (f + 1) n [eofTok] = .ok n [eofTok] := by
  intro f n
  simp only [rdp_ior_loop,
    rdp_consume_blanks_nospace ([] : List token_t) (show eofTok.type ≠ TOK_SPACE by decide),
    rdp_peek]
  rw [if_neg (by decide)]

/-- C5: For every valid expression text `E` — one whose characters the
lexer recognizes, that lexes to completion, and whose token sequence
parses as an expression consuming everything up to the end-of-input
token — lexing and parsing the string `"(" ++ E ++ ")"` yields an AST
structurally identical to the AST obtained from `E` alone: the
parenthesized primary rule consumes both parentheses and returns the
inner expression's node unchanged, with no wrapper node. -/
theorem C5_paren_roundtrip (E : String) (ts : List token_t) (n : Node) (f g : Nat)
    (hrec : ∀ c ∈ E.data, recognizedChar c = true)
    (hlex : lex_run f E.data = some (ts, []))
    (hparse : rdp_generate_ast g ts = .ok n [eofTok]) :
    lex_run (f + 2) (("(" ++ E ++ ")").data)
      = some (lex_mkkw TOK_LPAREN :: ts.dropLast ++ [lex_mkkw TOK_RPAREN, eofTok], [])
    ∧ rdp_generate_ast (g + 8)
        (lex_mkkw TOK_LPAREN :: ts.dropLast ++ [lex_mkkw TOK_RPAREN, eofTok])
      = .ok n [eofTok] := by
  have hdata : ("(" ++ E ++ ")").data = '(' :: (E.data ++ [')']) := by
    simp [String.data_append]
  constructor
  · rw [hdata]
    exact lex_run_prepend (f + 1) (E.data ++ [')']) _ _
      (lex_run_append f E.data ts hrec hlex)
  · obtain ⟨core, hcorets, hne⟩ := lex_run_shape f E.data ts [] hlex
    have hdrop : ts.dropLast = core := by
      rw [hcorets]
      exact List.dropLast_concat
    rw [hdrop]
    have hexpr : rdp_expression g (core ++ eofTok :: []) = .ok n ([] ++ eofTok :: []) := by
      rw [hcorets] at hparse
      simpa using hparse
    have hrep := (rdp_replace (show Stopper eofTok by decide)
      (show Stopper (lex_mkkw TOK_RPAREN) by decide) [] [eofTok]
      g).2.2.2.2.2.2.2.2.2.2.2.2 core [] n hexpr
    have hrep2 : rdp_expression g (core ++ [lex_mkkw TOK_RPAREN, eofTok])
        = .ok n [lex_mkkw TOK_RPAREN, eofTok] := by simpa using hrep
    have hprim : rdp_primary_exp (g + 1)
        (lex_mkkw TOK_LPAREN :: core ++ [lex_mkkw TOK_RPAREN, eofTok])
        = .ok n [eofTok] := by
      have hcb1 : rdp_consume_blanks
            (lex_mkkw TOK_LPAREN :: core ++ [lex_mkkw TOK_RPAREN, eofTok])
          = some (lex_mkkw TOK_LPAREN :: core ++ [lex_mkkw TOK_RPAREN, eofTok]) :=
        rdp_consume_blanks_nospace _ (by decide)
      have hcb2 : rdp_consume_blanks [lex_mkkw TOK_RPAREN, eofTok]
          = some [lex_mkkw TOK_RPAREN, eofTok] :=
        rdp_consume_blanks_nospace _ (by decide)
      have hpk : rdp_peek (lex_mkkw TOK_LPAREN :: core ++ [lex_mkkw TOK_RPAREN, eofTok])
          = some (lex_mkkw TOK_LPAREN) := rfl
      have hpop : rdp_pop [lex_mkkw TOK_RPAREN, eofTok]
          = some (lex_mkkw TOK_RPAREN, [eofTok]) := rfl
      simp only [rdp_primary_exp, hcb1, hpk, List.tail_cons]
      rw [if_pos (show (lex_mkkw TOK_LPAREN).type = TOK_LPAREN from rfl)]
      rw [show (lex_mkkw TOK_LPAREN :: core ++ [lex_mkkw TOK_RPAREN, eofTok]).tail
        = core ++ [lex_mkkw TOK_RPAREN, eofTok] from rfl]
      rw [hrep2]
      simp only [hcb2, hpop]
      rw [if_pos (show (lex_mkkw TOK_RPAREN).type = TOK_RPAREN from rfl)]
    have hun : rdp_unary_exp (g + 2)
        (lex_mkkw TOK_LPAREN :: core ++ [lex_mkkw TOK_RPAREN, eofTok])
        = .ok n [eofTok] := hprim
    have hm : rdp_mult_exp (g + 3)
        (lex_mkkw TOK_LPAREN :: core ++ [lex_mkkw TOK_RPAREN, eofTok])
        = .ok n [eofTok] := by
      simp only [rdp_mult_exp, hun]
      exact rdp_mult_loop_eof (g + 1) n
    have hadd : rdp_additive_exp (g + 4)
        (lex_mkkw TOK_LPAREN :: core ++ [lex_mkkw TOK_RPAREN, eofTok])
        = .ok n [eofTok] := by
      simp only [rdp_additive_exp, hm]
      exact rdp_additive_loop_eof (g + 2) n
    have hand : rdp_and_exp (g + 5)
        (lex_mkkw TOK_LPAREN :: core ++ [lex_mkkw TOK_RPAREN, eofTok])
        = .ok n [eofTok] := by
      simp only [rdp_and_exp, hadd]
      exact rdp_and_loop_eof (g + 3) n
    have hxor : rdp_xor_exp (g + 6)
        (lex_mkkw TOK_LPAREN :: core ++ [lex_mkkw TOK_RPAREN, eofTok])
        = .ok n [eofTok] := by
      simp only [rdp_xor_exp, hand]
      exact rdp_xor_loop_eof (g + 4) n
    have hior : rdp_ior_exp (g + 7)
        (lex_mkkw TOK_LPAREN :: core ++ [lex_mkkw TOK_RPAREN, eofTok])
        = .ok n [eofTok] := by
      simp only [rdp_ior_exp, hxor]
      exact rdp_ior_loop_eof (g + 5) n
    show rdp_expression (g + 8) _ = _
    simp only [rdp_expression]
    exact hior

theorem C5_paren_roundtrip_witness :
    lex_run (2 + 2) (("(" ++ "1" ++ ")").data)
      = some (lex_mkkw TOK_LPAREN ::
          ([lex_mknumber TOK_NUMBER ['1'], eofTok]).dropLast
          ++ [lex_mkkw TOK_RPAREN, eofTok], [])
    ∧ rdp_generate_ast (9 + 8)
        (lex_mkkw TOK_LPAREN :: ([lex_mknumber TOK_NUMBER ['1'], eofTok]).dropLast
          ++ [lex_mkkw TOK_RPAREN, eofTok])
      = .ok (ast_number 1) [eofTok] :=
  C5_paren_roundtrip "1" [lex_mknumber TOK_NUMBER ['1'], eofTok] (ast_number 1) 2 9
    (by decide) (by decide) (by decide)

/-- C1: Parsing `"2+3*4"` yields `Binary(plus, Leaf 2, Binary(multiply,
Leaf 3, Leaf 4))` and parsing `"2*3+4"` yields `Binary(plus,
Binary(multiply, Leaf 2, Leaf 3), Leaf 4)`: the multiplicative level
binds tighter than the additive level. -/
theorem C1_mult_binds_tighter_than_add :
    cc_parse "2+3*4" = some (.ok (ast_binary_operator TOK_PLUS (ast_number 2)
      (ast_binary_operator TOK_MULTIPLY (ast_number 3) (ast_number 4))) [eofTok]) ∧
    cc_parse "2*3+4" = some (.ok (ast_binary_operator TOK_PLUS
      (ast_binary_operator TOK_MULTIPLY (ast_number 2) (ast_number 3))
      (ast_number 4)) [eofTok]) := by
  constructor <;> decide

/-- C2: Every grammar level is a left-associative fold: `"1-2-3"` parses
to `Binary(minus, Binary(minus, Leaf 1, Leaf 2), Leaf 3)`, and the
analogous left-nested shape holds at the multiplicative, bitwise-and,
bitwise-xor and bitwise-or levels. -/
theorem C2_left_associative_folds :
    cc_parse "1-2-3" = some (.ok (ast_binary_operator TOK_MINUS
      (ast_binary_operator TOK_MINUS (ast_number 1) (ast_number 2))
      (ast_number 3)) [eofTok]) ∧
    cc_parse "8/4/2" = some (.ok (ast_binary_operator TOK_DIV
      (ast_binary_operator TOK_DIV (ast_number 8) (ast_number 4))
      (ast_number 2)) [eofTok]) ∧
    cc_parse "1&2&3" = some (.ok (ast_binary_operator TOK_BWAND
      (ast_binary_operator TOK_BWAND (ast_number 1) (ast_number 2))
      (ast_number 3)) [eofTok]) ∧
    cc_parse "1^2^3" = some (.ok (ast_binary_operator TOK_BWXOR
      (ast_binary_operator TOK_BWXOR (ast_number 1) (ast_number 2))
      (ast_number 3)) [eofTok]) ∧
    cc_parse "1|2|3" = some (.ok (ast_binary_operator TOK_BWOR
      (ast_binary_operator TOK_BWOR (ast_number 1) (ast_number 2))
      (ast_number 3)) [eofTok]) := by
  refine ⟨?_, ?_, ?_, ?_, ?_⟩ <;> decide

/-- C3 counterexample: after `!` the lexer reads one more character; if
it is not `=` the reference `lex_chnot` returns NULL with the extra
character consumed — it does not emit a single-character token and does
not push the character back, refuting the claim for the prefix `!`. -/
theorem C3_counterexample_bang_null :
    lex_token ['!', 'a'] = (none, []) ∧
    ∀ t : token_t, lex_token ['!', 'a'] ≠ (some t, ['a']) := by
  refine ⟨by decide, ?_⟩
  intro t h
  rw [show lex_token ['!', 'a'] = (none, []) from by decide] at h
  simp at h

/-- C3 (amended): for the two-character prefixes `=`, `&`, `|`, `<`, `>`
followed by a character that does not complete a known two-character
operator, the lexer emits the corresponding single-character token and
pushes the extra character back; each known combination (`!=`, `==`,
`&&`, `||`, `<<`, `<=`, `>>`, `>=`) yields its two-character token
(maximal munch); but `!` followed by anything other than `=` yields NULL
with the extra character consumed, not a single-character token. -/
theorem C3_maximal_munch_and_pushback :
    (∀ (c : Char) (rest : List Char), c ≠ '=' →
      lex_token ('=' :: c :: rest) = (some (lex_mkkw TOK_BWOR), c :: rest)) ∧
    (∀ (c : Char) (rest : List Char), c ≠ '&' →
      lex_token ('&' :: c :: rest) = (some (lex_mkkw TOK_BWAND), c :: rest)) ∧
    (∀ (c : Char) (rest : List Char), c ≠ '|' →
      lex_token ('|' :: c :: rest) = (some (lex_mkkw TOK_BWOR), c :: rest)) ∧
    (∀ (c : Char) (rest : List Char), c ≠ '<' → c ≠ '=' →
      lex_token ('<' :: c :: rest) = (some (lex_mkkw TOK_LT), c :: rest)) ∧
    (∀ (c : Char) (rest : List Char), c ≠ '>' → c ≠ '=' →
      lex_token ('>' :: c :: rest) = (some (lex_mkkw TOK_GT), c :: rest)) ∧
    (∀ rest : List Char,
      lex_token ('!' :: '=' :: rest) = (some (lex_mkkw TOK_NEQUALITY), rest)) ∧
    (∀ rest : List Char,
      lex_token ('=' :: '=' :: rest) = (some (lex_mkkw TOK_EQUALITY), rest)) ∧
    (∀ rest : List Char,
      lex_token ('&' :: '&' :: rest) = (some (lex_mkkw TOK_LAND), rest)) ∧
    (∀ rest : List Char,
      lex_token ('|' :: '|' :: rest) = (some (lex_mkkw TOK_LOR), rest)) ∧
    (∀ rest : List Char,
      lex_token ('<' :: '<' :: rest) = (some (lex_mkkw TOK_LSHIFT), rest)) ∧
    (∀ rest : List Char,
      lex_token ('<' :: '=' :: rest) = (some (lex_mkkw TOK_LTE), rest)) ∧
    (∀ rest : List Char,
      lex_token ('>' :: '>' :: rest) = (some (lex_mkkw TOK_RSHIFT), rest)) ∧
    (∀ rest : List Char,
      lex_token ('>' :: '=' :: rest) = (some (lex_mkkw TOK_GTE), rest)) ∧
    (∀ (c : Char) (rest : List Char), c ≠ '=' →
      lex_token ('!' :: c :: rest) = (none, rest)) := by
  refine ⟨?_, ?_, ?_, ?_, ?_, fun rest => rfl, fun rest => rfl, fun rest => rfl,
    fun rest => rfl, fun rest => rfl, fun rest => rfl, fun rest => rfl,
    fun rest => rfl, ?_⟩
  · intro c rest hc
    show lex_cheq (c :: rest) = _
    simp only [lex_cheq, if_neg hc]
  · intro c rest hc
    show lex_chand (c :: rest) = _
    simp only [lex_chand, if_neg hc]
  · intro c rest hc
    show lex_chor (c :: rest) = _
    simp only [lex_chor, if_neg hc]
  · intro c rest hc1 hc2
    show lex_chlbr (c :: rest) = _
    simp only [lex_chlbr, if_neg hc1, if_neg hc2]
  · intro c rest hc1 hc2
    show lex_chrbr (c :: rest) = _
    simp only [lex_chrbr, if_neg hc1, if_neg hc2]
  · intro c rest hc
    show lex_chnot (c :: rest) = _
    simp only [lex_chnot, if_neg hc]

theorem C3_maximal_munch_witness :
    lex_token ['=', 'a'] = (some (lex_mkkw TOK_BWOR), ['a']) ∧
    lex_token ['<', 'b'] = (some (lex_mkkw TOK_LT), ['b']) ∧
    lex_token ['!', 'b'] = (none, []) :=
  ⟨C3_maximal_munch_and_pushback.1 'a' [] (by decide),
   C3_maximal_munch_and_pushback.2.2.2.1 'b' [] (by decide) (by decide),
   C3_maximal_munch_and_pushback.2.2.2.2.2.2.2.2.2.2.2.2.2 'b' [] (by decide)⟩

/-- C4: a bare `=` (one not followed by a second `=`) lexes to the same
token kind as `|` (`TOK_BWOR`) with the following character pushed back,
so the parser folds a bare `=` between two expressions at the bitwise-or
precedence level, exactly as if `|` had been written. -/
theorem C4_bare_equals_is_bwor :
    (∀ (c : Char) (rest : List Char), c ≠ '=' →
      lex_token ('=' :: c :: rest) = (some (lex_mkkw TOK_BWOR), c :: rest)) ∧
    (∀ (c : Char) (rest : List Char), c ≠ '=' → c ≠ '|' →
      lex_token ('=' :: c :: rest) = lex_token ('|' :: c :: rest)) ∧
    cc_parse "1=2" = cc_parse "1|2" ∧
    cc_parse "1=2" = some (.ok (ast_binary_operator TOK_BWOR (ast_number 1)
      (ast_number 2)) [eofTok]) := by
  refine ⟨?_, ?_, by decide, by decide⟩
  · intro c rest hc
    show lex_cheq (c :: rest) = _
    simp only [lex_cheq, if_neg hc]
  · intro c rest hc hc2
    show lex_cheq (c :: rest) = lex_chor (c :: rest)
    simp only [lex_cheq, lex_chor, if_neg hc, if_neg hc2]

theorem C4_bare_equals_witness :
    lex_token ['=', 'a'] = (some (lex_mkkw TOK_BWOR), ['a']) ∧
    lex_token ['=', 'a'] = lex_token ['|', 'a'] :=
  ⟨C4_bare_equals_is_bwor.1 'a' [] (by decide),
   C4_bare_equals_is_bwor.2.1 'a' [] (by decide) (by decide)⟩

/-- C6: parsing `"(1+2"` (unbalanced parenthesis) fails with
`UnexpectedToken` at the closing-parenthesis check and yields no AST
node, and parsing `")"` fails with `UnexpectedToken` at the primary
level (a number literal or `(` was required); in both cases the whole
parse aborts with no node returned. -/
theorem C6_failed_parse_returns_nothing :
    cc_parse "(1+2" = some (.fail .UnexpectedToken) ∧
    cc_parse ")" = some (.fail .UnexpectedToken) := by
  constructor <;> decide

/-- C7 counterexample: on the input `"!a"` the very first call to the
lexer returns NULL — not a token of the closed enumeration — so the
driver loop aborts; this refutes the claim that every call returns a
token. -/
theorem C7_counterexample_null_token :
    lex_token ['!', 'a'] = (none, []) ∧ lex_run 3 ['!', 'a'] = none := by
  constructor <;> decide

/-- C7 (amended): for every input in which each `!` is immediately
followed by `=`, repeated calls to `lex_token` produce a finite token
sequence (at most `length + 1` calls) in which every token's kind is
drawn from the closed enumeration, the final token has kind end-of-input
and no earlier one does.  For other inputs the `!` case may return NULL
instead of a token. -/
theorem C7_lexer_terminates (l : List Char) (hb : bangOk l = true) :
    ∃ ts rest core, lex_run (l.length + 1) l = some (ts, rest) ∧
      ts = core ++ [eofTok] ∧ ∀ x ∈ core, x.type ≠ TOK_EOF := by
  obtain ⟨ts, rest, hrun⟩ := lex_run_total (l.length + 1) l hb (by omega)
  obtain ⟨core, hcore, hne⟩ := lex_run_shape _ _ _ _ hrun
  exact ⟨ts, rest, core, hrun, hcore, hne⟩

theorem C7_lexer_terminates_witness :
    ∃ ts rest core, lex_run (['1', '+', '2'].length + 1) ['1', '+', '2']
        = some (ts, rest) ∧
      ts = core ++ [eofTok] ∧ ∀ x ∈ core, x.type ≠ TOK_EOF :=
  C7_lexer_terminates ['1', '+', '2'] (by decide)

/-- C8: the top-level entry `rdp_generate_ast` invokes the expression
rule exactly once and never checks that all tokens were consumed: when
the expression rule succeeds on a prefix, the same node is the whole
result, the trailing tokens are ignored, and the consumed prefix alone
(followed by an end-of-input token) parses to the identical AST. -/
theorem C8_trailing_tokens_ignored (fuel : Nat) (l : List token_t) (n : Node)
    (rem : List token_t) (h : rdp_expression fuel l = .ok n rem) :
    rdp_generate_ast fuel l = .ok n rem ∧
    (∀ f2 l2, rdp_generate_ast f2 l2 = rdp_expression f2 l2) ∧
    ∃ P, l = P ++ rem ∧ rdp_generate_ast fuel (P ++ [eofTok]) = .ok n [eofTok] := by
  refine ⟨h, fun _ _ => rfl, ?_⟩
  obtain ⟨t, r2, rfl, hstop⟩ := rdp_expression_stop h
  have hsuf : (t :: r2) <:+ l := rdp_expression_suffix h
  obtain ⟨P, hP⟩ := hsuf
  have hyp : rdp_expression fuel (P ++ t :: r2) = .ok n ([] ++ t :: r2) := by
    rw [hP]
    simpa using h
  have hrep := (rdp_replace hstop (show Stopper eofTok by decide) r2 []
    fuel).2.2.2.2.2.2.2.2.2.2.2.2 P [] n hyp
  refine ⟨P, hP.symm, ?_⟩
  show rdp_expression fuel (P ++ [eofTok]) = .ok n [eofTok]
  simpa using hrep

theorem C8_trailing_tokens_witness :
    rdp_generate_ast 9 [lex_mknumber TOK_NUMBER ['1'], lex_mkkw TOK_RPAREN, eofTok]
      = .ok (ast_number 1) [lex_mkkw TOK_RPAREN, eofTok] ∧
    (∀ f2 l2, rdp_generate_ast f2 l2 = rdp_expression f2 l2) ∧
    ∃ P, [lex_mknumber TOK_NUMBER ['1'], lex_mkkw TOK_RPAREN, eofTok]
        = P ++ [lex_mkkw TOK_RPAREN, eofTok] ∧
      rdp_generate_ast 9 (P ++ [eofTok]) = .ok (ast_number 1) [eofTok] :=
  C8_trailing_tokens_ignored 9
    [lex_mknumber TOK_NUMBER ['1'], lex_mkkw TOK_RPAREN, eofTok]
    (ast_number 1) [lex_mkkw TOK_RPAREN, eofTok] (by decide)

/-- C9: on a well-formed token sequence (exactly one end-of-input token,
at the end) the parse context cursor stays in bounds for the entire
parse: no `rdp_peek`, `rdp_pop` or `rdp_consume_blanks` access runs past
the end-of-input token (the parse never produces the out-of-bounds
outcome), `rdp_consume_blanks` stops at or before the end-of-input
token, and any successful remainder still ends with it. -/
theorem C9_cursor_stays_in_bounds (fuel : Nat) (l : List token_t)
    (h : WellFormedToks l) :
    rdp_generate_ast fuel l ≠ .fail .OutOfBounds ∧
    (∃ l', rdp_consume_blanks l = some l' ∧ HasEOF l') ∧
    (∀ n rem, rdp_generate_ast fuel l = .ok n rem → HasEOF rem) := by
  obtain ⟨c, t, rfl, ht, hcore⟩ := h
  have hE : HasEOF (c ++ [t]) := ⟨c, t, rfl, ht⟩
  have hsafe := (rdp_safe fuel).2.2.2.2.2.2.2.2.2.2.2.2 (c ++ [t]) hE
  refine ⟨?_, ?_, ?_⟩
  · intro hcontra
    rw [rdp_generate_ast_eq] at hcontra
    rcases hsafe with ⟨n, r, hok, _⟩ | hf | hnf
    · rw [hok] at hcontra
      cases hcontra
    · rw [hf] at hcontra
      simp at hcontra
    · rw [hnf] at hcontra
      cases hcontra
  · exact ⟨dropSpaces c ++ [t], rdp_consume_blanks_append c [] (by simp [ht]),
      ⟨dropSpaces c, t, rfl, ht⟩⟩
  · intro n rem hok
    rw [rdp_generate_ast_eq] at hok
    rcases hsafe with ⟨n2, r2, hok2, hE2⟩ | hf | hnf
    · rw [hok2] at hok
      cases hok
      exact hE2
    · rw [hf] at hok
      cases hok
    · rw [hnf] at hok
      cases hok

theorem C9_cursor_witness :
    rdp_generate_ast 9 [lex_mknumber TOK_NUMBER ['1'], eofTok]
        ≠ .fail .OutOfBounds ∧
    (∃ l', rdp_consume_blanks [lex_mknumber TOK_NUMBER ['1'], eofTok] = some l' ∧
      HasEOF l') ∧
    (∀ n rem, rdp_generate_ast 9 [lex_mknumber TOK_NUMBER ['1'], eofTok]
        = .ok n rem → HasEOF rem) :=
  C9_cursor_stays_in_bounds 9 [lex_mknumber TOK_NUMBER ['1'], eofTok]
    ⟨[lex_mknumber TOK_NUMBER ['1']], eofTok, rfl, rfl, by decide⟩

/-- C10: every node in an AST returned by a successful parse is either a
numeric leaf or a binary node over one of exactly the eight folded
operator kinds (bitwise-or, bitwise-xor, bitwise-and, plus, minus,
multiply, divide, modulo), with no unary node and no other operator kind
anywhere in the tree. -/
theorem C10_only_good_nodes (fuel : Nat) (l : List token_t) (n : Node)
    (rem : List token_t) (h : rdp_generate_ast fuel l = .ok n rem) :
    goodNode n = true :=
  (rdp_good fuel).2.2.2.2.2.2.2.2.2.2.2.2 l n rem h

theorem C10_only_good_nodes_witness :
    goodNode (ast_binary_operator TOK_PLUS (ast_number 1) (ast_number 2)) = true :=
  C10_only_good_nodes 9
    [lex_mknumber TOK_NUMBER ['1'], lex_mkkw TOK_PLUS, lex_mknumber TOK_NUMBER ['2'],
      eofTok]
    (ast_binary_operator TOK_PLUS (ast_number 1) (ast_number 2)) [eofTok] (by decide)
